import Mathlib

/-!
Verification of the order-book replay and backtest engine.

This file gives a shallow embedding of the repository's core code:
`models.py` (the `OrderBook` replay) and `order_book_tester.py` (the
matching/fill engine and strategy ledger), and proves or refutes the
claims of the specification against it.
-/

/-- Association-list lookup: the first binding of the key wins.  Models
Python dict access on dictionaries whose keys are kept distinct. -/
def alookup {α β : Type} [DecidableEq α] : List (α × β) → α → Option β
  | [], _ => none
  | (k, v) :: l, a => if k = a then some v else alookup l a

/-- Python `d[k] = v`: replace the first binding of `k` in place, else
append a new binding at the end (dict insertion order). -/
def aset {α β : Type} [DecidableEq α] : List (α × β) → α → β → List (α × β)
  | [], a, b => [(a, b)]
  | (k, v) :: l, a, b => if k = a then (k, b) :: l else (k, v) :: aset l a b

/-- Python `del d[k]`: remove the first binding of `k`. -/
def aerase {α β : Type} [DecidableEq α] : List (α × β) → α → List (α × β)
  | [], _ => []
  | (k, v) :: l, a => if k = a then l else (k, v) :: aerase l a

/-- Python `d[k] = f(d[k])` on a key assumed present: rewrite the value of
the first binding of `k`; on an absent key this is the identity (that
path would raise `KeyError` in Python and is unreachable in the replay). -/
def amodify {α β : Type} [DecidableEq α] : List (α × β) → α → (β → β) → List (α × β)
  | [], _, _ => []
  | (k, v) :: l, a, f => if k = a then (k, f v) :: l else (k, v) :: amodify l a f

/-- The keys of an association list, in insertion order. -/
def keys {α β : Type} (l : List (α × β)) : List α := l.map Prod.fst

/-- Python `list.remove(x)`: drop the first occurrence of `x` (no-op when
absent; Python would raise `ValueError`, unreachable in the replay). -/
def removeFirst {α : Type} [DecidableEq α] : List α → α → List α
  | [], _ => []
  | x :: l, a => if x = a then l else x :: removeFirst l a

namespace Models

/-- Message/order side: `'B'` for bids, `'S'` for asks. -/
inductive Side
  | B
  | S
deriving DecidableEq, Repr

/-- A resting order as the book stores it: its `order_id`, `price` and
mutable `qty` (the other `Order` fields of `models.py` are not read by
the book operations once the order rests). -/
structure SRec where
  oid : Nat
  price : Int
  qty : Int
deriving DecidableEq, Repr

/-- One side of `OrderBook` from `models.py`.  `levels` models the
`SortedDict` of FIFO lists (`self.bids` / `self.asks`), `qtyDict` the
aggregate-quantity dict (`bid_qty_dict` / `ask_qty_dict`), `orderDict`
the id map (`bid_order_dict` / `ask_order_dict`).  Python aliases one
mutable order object from both a FIFO list and the id map; this sharing
is modelled by a heap: queues and `orderDict` hold serial numbers,
`heap` maps a serial to the current order record, and `nextSerial`
allocates fresh serials. -/
structure SideBook where
  levels : List (Int × List Nat)
  qtyDict : List (Int × Int)
  orderDict : List (Nat × Nat)
  heap : Nat → SRec
  nextSerial : Nat

/-- Heap update: overwrite the record at serial `sn`. -/
def hset (h : Nat → SRec) (sn : Nat) (r : SRec) : Nat → SRec :=
  fun x => if x = sn then r else h x

/-- An empty book side. -/
def emptySide : SideBook :=
  { levels := [], qtyDict := [], orderDict := [], heap := fun _ => ⟨0, 0, 0⟩,
    nextSerial := 0 }

/-- The `'A'` branch of `OrderBook.add_order` on one side: create the
level and its zero aggregate if the price is new, append the order to
the price's FIFO list, register it in the id map, add its quantity to
the aggregate. -/
def sideAdd (s : SideBook) (oid : Nat) (price qty : Int) : SideBook :=
  let sn := s.nextSerial
  let levels0 := if price ∈ keys s.levels then s.levels else s.levels ++ [(price, [])]
  let qty0 := if price ∈ keys s.levels then s.qtyDict else s.qtyDict ++ [(price, 0)]
  { levels := amodify levels0 price (fun q => q ++ [sn])
    qtyDict := amodify qty0 price (fun v => v + qty)
    orderDict := aset s.orderDict oid sn
    heap := hset s.heap sn ⟨oid, price, qty⟩
    nextSerial := sn + 1 }

/-- `OrderBook.delete_order` on one side: on an unknown id only log and
return; otherwise remove the resting order from its level's FIFO list,
subtract its current quantity from the aggregate, drop the level (and
its aggregate entry) if the list became empty, and unregister the id. -/
def sideDelete (s : SideBook) (oid : Nat) : SideBook :=
  match alookup s.orderDict oid with
  | none => s
  | some sn =>
    let ord := s.heap sn
    let s1 :=
      if ord.price ∈ keys s.levels then
        let q1 := removeFirst ((alookup s.levels ord.price).getD []) sn
        let levels1 := amodify s.levels ord.price (fun q => removeFirst q sn)
        let qty1 := amodify s.qtyDict ord.price (fun v => v - ord.qty)
        if q1 = [] then
          { s with levels := aerase levels1 ord.price, qtyDict := aerase qty1 ord.price }
        else
          { s with levels := levels1, qtyDict := qty1 }
      else s
    { s1 with orderDict := aerase s1.orderDict oid }

/-- `OrderBook.execute_order` on one side: on an unknown id only log and
return; otherwise decrement the resting order's quantity and the level
aggregate by the executed quantity, and delete the order outright if
its quantity dropped to zero or below. -/
def sideExecute (s : SideBook) (oid : Nat) (qty : Int) : SideBook :=
  match alookup s.orderDict oid with
  | none => s
  | some sn =>
    let ord := s.heap sn
    let s1 := { s with
                heap := hset s.heap sn { ord with qty := ord.qty - qty }
                qtyDict := amodify s.qtyDict ord.price (fun v => v - qty) }
    if ord.qty - qty ≤ 0 then sideDelete s1 oid else s1

/-- The `OrderBook` of `models.py`: the six dictionaries, grouped per side. -/
structure OrderBook where
  bids : SideBook
  asks : SideBook

/-- A fresh `OrderBook()`. -/
def emptyBook : OrderBook := { bids := emptySide, asks := emptySide }

/-- Message type of an input record: Add, Delete or Execute. -/
inductive MsgType
  | A
  | D
  | E
deriving DecidableEq, Repr

/-- One input record (the `Order` class of `models.py`). -/
structure Msg where
  network_time : Int
  bist_time : Int
  msg_type : MsgType
  asset_name : String
  side : Side
  price : Int
  que_loc : Int
  qty : Int
  order_id : Nat
deriving DecidableEq, Repr

/-- `OrderBook.delete_order`, dispatching on the message's side. -/
def OrderBook.deleteOrder (b : OrderBook) (m : Msg) : OrderBook :=
  match m.side with
  | .B => { b with bids := sideDelete b.bids m.order_id }
  | .S => { b with asks := sideDelete b.asks m.order_id }

/-- `OrderBook.execute_order`, dispatching on the message's side. -/
def OrderBook.executeOrder (b : OrderBook) (m : Msg) : OrderBook :=
  match m.side with
  | .B => { b with bids := sideExecute b.bids m.order_id m.qty }
  | .S => { b with asks := sideExecute b.asks m.order_id m.qty }

/-- `OrderBook.add_order`: dispatch on the message type. -/
def OrderBook.addOrder (b : OrderBook) (m : Msg) : OrderBook :=
  match m.msg_type with
  | .A =>
    match m.side with
    | .B => { b with bids := sideAdd b.bids m.order_id m.price m.qty }
    | .S => { b with asks := sideAdd b.asks m.order_id m.price m.qty }
  | .D => b.deleteOrder m
  | .E => b.executeOrder m

/-- The book obtained by replaying a message stream from an empty book,
as `process_orders` does. -/
def replayBook (msgs : List Msg) : OrderBook :=
  msgs.foldl OrderBook.addOrder emptyBook

/-- The id map of the side a message refers to. -/
def OrderBook.dictOf (b : OrderBook) (side : Side) : List (Nat × Nat) :=
  match side with
  | .B => b.bids.orderDict
  | .S => b.asks.orderDict

end Models

/-- C8: a Delete or Execute message whose order id is absent from the
referenced side's id map leaves the whole book state unchanged (levels,
FIFO lists, aggregates and id maps of both sides); the replay loop is a
total fold, so it continues with the next message. -/
theorem C8_unknown_id_leaves_book_unchanged (b : Models.OrderBook) (m : Models.Msg)
    (h : alookup (b.dictOf m.side) m.order_id = none) :
    b.deleteOrder m = b ∧ b.executeOrder m = b := by
  cases m with
  | mk nt bt mt an side price ql qty oid =>
    cases side <;>
      simp only [Models.OrderBook.dictOf] at h <;>
      simp [Models.OrderBook.deleteOrder, Models.OrderBook.executeOrder,
            Models.sideDelete, Models.sideExecute, h]

/-- Witness for C8 at a concrete input: deleting / executing order id 7
on the empty book leaves it unchanged. -/
theorem C8_witness :
    alookup (Models.OrderBook.dictOf Models.emptyBook Models.Side.B) 7 = none ∧
      (Models.emptyBook.deleteOrder
          ⟨0, 0, Models.MsgType.D, "X", Models.Side.B, 0, 0, 0, 7⟩ = Models.emptyBook ∧
        Models.emptyBook.executeOrder
          ⟨0, 0, Models.MsgType.D, "X", Models.Side.B, 0, 0, 0, 7⟩ = Models.emptyBook) :=
  ⟨rfl, C8_unknown_id_leaves_book_unchanged Models.emptyBook
      ⟨0, 0, Models.MsgType.D, "X", Models.Side.B, 0, 0, 0, 7⟩ rfl⟩

namespace Models

/-- The dictionary returned by `OrderBook.snapshot`: timestamp, asset,
top-3 bid and ask (price, qty) pairs and the `"Mold Package"` string.
The field names and their order mirror the Python dict keys. -/
structure Snapshot where
  Date : Int
  Asset : String
  bid1qty : Int
  bid1px : Int
  bid2qty : Int
  bid2px : Int
  bid3qty : Int
  bid3px : Int
  ask1px : Int
  ask1qty : Int
  ask2px : Int
  ask2qty : Int
  ask3px : Int
  ask3qty : Int
  moldPackage : String
deriving DecidableEq, Repr

/-- The keys of a side's `SortedDict` in ascending price order. -/
def sortedKeys {α : Type} (l : List (Int × α)) : List Int :=
  List.insertionSort (· ≤ ·) (keys l)

/-- The mold-package entries contributed by one side: one
`"A-side-price-qty-order_id"` string per resting order at the listed
prices, in FIFO order. -/
def moldFor (sideStr : String) (s : SideBook) (prices : List Int) : List String :=
  (prices.map (fun p =>
    ((alookup s.levels p).getD []).map (fun sn =>
      "A-" ++ sideStr ++ "-" ++ toString p ++ "-" ++ toString (s.heap sn).qty
        ++ "-" ++ toString (s.heap sn).oid))).flatten

/-- `OrderBook.snapshot`: top-3 bid prices descending, top-3 ask prices
ascending, their cached aggregate quantities, and the mold package;
absent levels are reported as 0. -/
def OrderBook.snapshot (b : OrderBook) (timestamp : Int) (assetName : String) : Snapshot :=
  let bidPrices := (sortedKeys b.bids.levels).reverse.take 3
  let askPrices := (sortedKeys b.asks.levels).take 3
  let bidQtys := bidPrices.map (fun p => (alookup b.bids.qtyDict p).getD 0)
  let askQtys := askPrices.map (fun p => (alookup b.asks.qtyDict p).getD 0)
  let mold := String.intercalate ";" (moldFor "B" b.bids bidPrices ++ moldFor "S" b.asks askPrices)
  { Date := timestamp
    Asset := assetName
    bid1qty := bidQtys.getD 0 0
    bid1px := bidPrices.getD 0 0
    bid2qty := bidQtys.getD 1 0
    bid2px := bidPrices.getD 1 0
    bid3qty := bidQtys.getD 2 0
    bid3px := bidPrices.getD 2 0
    ask1px := askPrices.getD 0 0
    ask1qty := askQtys.getD 0 0
    ask2px := askPrices.getD 1 0
    ask2qty := askQtys.getD 1 0
    ask3px := askPrices.getD 2 0
    ask3qty := askQtys.getD 2 0
    moldPackage := mold }

/-- One iteration of the `process_orders` loop: apply the record to the
book, snapshot it at the record's `network_time`, and replace the last
emitted snapshot when it carries the same timestamp. -/
def snapStep (acc : OrderBook × List Snapshot) (m : Msg) : OrderBook × List Snapshot :=
  let b := acc.1.addOrder m
  let snap := b.snapshot m.network_time m.asset_name
  let snaps :=
    match acc.2.getLast? with
    | some prev => if prev.Date = snap.Date then acc.2.dropLast ++ [snap] else acc.2 ++ [snap]
    | none => acc.2 ++ [snap]
  (b, snaps)

/-- `process_orders`: replay the stream and collect the timestamp-deduped
snapshot sequence. -/
def processOrders (msgs : List Msg) : List Snapshot :=
  (msgs.foldl snapStep (emptyBook, [])).2

/-- Modelled from the spec: `src/models.py` records no executions at all,
but the spec says an `Execute` message additionally records
`(execution_price = resting order's price, execution_quantity)` keyed by
the message's sequence time, and that a snapshot reports the execution
recorded for its exact timestamp, or `(0, 0)` if none.  This definition
computes that spec-side value for a stream and a timestamp. -/
def lastExecAt (msgs : List Msg) (t : Int) : Int × Int :=
  let step := fun (acc : OrderBook × List (Int × (Int × Int))) (m : Msg) =>
    let recs :=
      match m.msg_type with
      | .E =>
        let sideBook := match m.side with | .B => acc.1.bids | .S => acc.1.asks
        match alookup sideBook.orderDict m.order_id with
        | some sn => aset acc.2 m.network_time ((sideBook.heap sn).price, m.qty)
        | none => acc.2
      | _ => acc.2
    (acc.1.addOrder m, recs)
  (alookup (msgs.foldl step (emptyBook, [])).2 t).getD (0, 0)

/-- Stream with an execution at timestamp 2: add bid order 1 at price 100
for 500, then execute 200 of it. -/
def c9streamA : List Msg :=
  [⟨1, 0, .A, "X", .B, 100, 0, 500, 1⟩, ⟨2, 0, .E, "X", .B, 100, 0, 200, 1⟩]

/-- Stream without any execution: add bid order 1 at price 100 for 300,
then a Delete for an unknown id at timestamp 2 (logged and skipped). -/
def c9streamB : List Msg :=
  [⟨1, 0, .A, "X", .B, 100, 0, 300, 1⟩, ⟨2, 0, .D, "X", .B, 0, 0, 0, 2⟩]

/-- The snapshot both streams emit at timestamp 2. -/
def c9snap : Snapshot :=
  { Date := 2, Asset := "X", bid1qty := 300, bid1px := 100, bid2qty := 0, bid2px := 0,
    bid3qty := 0, bid3px := 0, ask1px := 0, ask1qty := 0, ask2px := 0, ask2qty := 0,
    ask3px := 0, ask3qty := 0, moldPackage := "A-B-100-300-1" }

end Models

/-- C9 (counterexample): the claim — every emitted snapshot carries
last-execution fields holding the execution recorded for its timestamp,
or (0, 0) when none — is false for `process_orders`: no reading of the
snapshot record can report executions, because two replays, one with an
execution of 200 at price 100 at timestamp 2 and one with no execution
there, emit the very same snapshot record at timestamp 2. -/
theorem C9_counterexample :
    ¬ ∃ f : Models.Snapshot → Int × Int,
        ∀ (msgs : List Models.Msg) (snap : Models.Snapshot),
          snap ∈ Models.processOrders msgs → f snap = Models.lastExecAt msgs snap.Date := by
  rintro ⟨f, hf⟩
  have hA := hf Models.c9streamA Models.c9snap (by decide)
  have hB := hf Models.c9streamB Models.c9snap (by decide)
  rw [hA] at hB
  revert hB
  decide

/-- C9 (amended): emitted snapshots carry no last-execution fields at
all — a snapshot reports only timestamp, asset, the top-3 levels and the
mold package, so the two replays of the counterexample, which differ
exactly in whether an execution happened at timestamp 2, emit identical
snapshot records there, while the spec-side execution values differ. -/
theorem C9_amended_snapshots_carry_no_execution :
    (Models.processOrders Models.c9streamA).getLast? = some Models.c9snap ∧
      (Models.processOrders Models.c9streamB).getLast? = some Models.c9snap ∧
      Models.lastExecAt Models.c9streamA 2 = (100, 200) ∧
      Models.lastExecAt Models.c9streamB 2 = (0, 0) := by
  exact ⟨by decide, by decide, by decide, by decide⟩

namespace Tester

/-- The `self.type` string of the tester's `Order`: `'market'`, `'limit'`
or `'delete'`. -/
inductive OType
  | market
  | limit
  | delete
deriving DecidableEq, Repr

/-- One partial-execution record, the dict `{price, volume, time}` kept
in `Order.exec_data` and `Trade.close_data`. -/
structure ExecRec where
  price : Int
  volume : Int
  time : Int
deriving DecidableEq, Repr

/-- The strategy-side `Order` of `order_book_tester.py`: `bistTime` is
the submission time plus the sampled strictly-positive latency, set once
at construction (`_adjust_time_with_latency`) and never recomputed. -/
structure TOrder where
  oid : Nat
  side : Models.Side
  size : Int
  otype : OType
  bistTime : Int
  price : Int
  sl : Int
  tp : Int
  deleted : Bool
  execData : List ExecRec
deriving DecidableEq, Repr

/-- `Order.waiting_volume`: the requested size minus all recorded fills. -/
def TOrder.waitingVolume (o : TOrder) : Int :=
  o.size - (o.execData.map ExecRec.volume).sum

/-- `Order.execute`: clamp the requested volume to the waiting volume,
then append the fill record. -/
def TOrder.execute (o : TOrder) (price volume time : Int) : TOrder :=
  let wv := o.waitingVolume
  let v := if volume > wv then wv else volume
  { o with execData := o.execData ++ [⟨price, v, time⟩] }

/-- The `Trade` of `order_book_tester.py`: an opened position with its
entry side, price, opening size, stop-loss, take-profit and the list of
partial closes. -/
structure Trade where
  tid : Nat
  side : Models.Side
  price : Int
  size : Int
  time : Int
  sl : Int
  tp : Int
  closeData : List ExecRec
deriving DecidableEq, Repr

/-- `Trade.active_size`: opening size minus the closed lots. -/
def Trade.activeSize (t : Trade) : Int :=
  t.size - (t.closeData.map ExecRec.volume).sum

/-- `Trade.close`: close `min(active_size, volume_available)` lots at the
given price. -/
def Trade.close (t : Trade) (price volumeAvailable time : Int) : Trade :=
  { t with closeData := t.closeData ++ [⟨price, min t.activeSize volumeAvailable, time⟩] }

/-- One row of the snapshot DataFrame as the engine reads it
(`self.data.loc[current_time]`); `time` is the row's index timestamp. -/
structure Row where
  time : Int
  bid1qty : Int
  bid1px : Int
  bid2qty : Int
  bid2px : Int
  bid3qty : Int
  bid3px : Int
  ask1px : Int
  ask1qty : Int
  ask2px : Int
  ask2qty : Int
  ask3px : Int
  ask3qty : Int
deriving DecidableEq, Repr

/-- The mutable state of `Strategy`: the cash balance, the orders dict
and positions dict (in insertion order) and the trade-id counter
(`Trade._trade_id_counter`). -/
structure StratState where
  cash : Int
  orders : List TOrder
  positions : List Trade
  nextTradeId : Nat
deriving DecidableEq, Repr

/-- `Strategy.waiting_orders`: orders with positive waiting volume that
are not deleted. -/
def waitingOrders (st : StratState) : List TOrder :=
  st.orders.filter (fun o => decide (0 < o.waitingVolume) && !o.deleted)

/-- `Strategy.current_positions`: trades with positive active size. -/
def currentPositions (st : StratState) : List Trade :=
  st.positions.filter (fun t => decide (0 < t.activeSize))

/-- Mutation of the one aliased order object with the given id (ids are
unique in a run, one per `_generate_id` call). -/
def updateOrder (st : StratState) (oid : Nat) (f : TOrder → TOrder) : StratState :=
  { st with orders := st.orders.map (fun o2 => if o2.oid = oid then f o2 else o2) }

/-- Mutation of the one aliased trade object with the given id. -/
def updateTrade (st : StratState) (tid : Nat) (f : Trade → Trade) : StratState :=
  { st with positions := st.positions.map (fun t2 => if t2.tid = tid then f t2 else t2) }

/-- `Strategy.position_open`: create a `Trade` carrying the order's side,
stop-loss and take-profit with opening size `volume`, record the fill on
the order, and move cash by the full notional `volume * price` (credit
for sells, debit for buys). -/
def positionOpen (st : StratState) (oid : Nat) (price volume time : Int) : StratState :=
  match st.orders.find? (fun o2 => o2.oid == oid) with
  | none => st
  | some o =>
    let trade : Trade := ⟨st.nextTradeId, o.side, price, volume, time, o.sl, o.tp, []⟩
    let st1 := { st with positions := st.positions ++ [trade],
                         nextTradeId := st.nextTradeId + 1 }
    let st2 := updateOrder st1 oid (fun o2 => o2.execute price volume time)
    match o.side with
    | .S => { st2 with cash := st2.cash + volume * price }
    | .B => { st2 with cash := st2.cash - volume * price }

/-- `Strategy.position_close`: append the close record, then adjust cash.
For a long (`'B'`) the source adds `(price - trade.price) * trade.active_size`,
reading `active_size` after the close was already appended; the short
branch of the source is `elif trade.size=='S':`, which compares the
numeric opening size with a string and never holds, so a short close
leaves cash unchanged. -/
def positionClose (st : StratState) (tid : Nat) (price volumeAvailable time : Int) :
    StratState :=
  match st.positions.find? (fun t2 => t2.tid == tid) with
  | none => st
  | some t0 =>
    let closed := t0.close price volumeAvailable time
    let st1 := updateTrade st tid (fun t2 => t2.close price volumeAvailable time)
    match t0.side with
    | .B => { st1 with cash := st1.cash + (price - t0.price) * closed.activeSize }
    | .S => st1

/-- Mark an order deleted (`order.deleted = True`). -/
def markDeleted (st : StratState) (oid : Nat) : StratState :=
  updateOrder st oid (fun o2 => { o2 with deleted := true })

/-- The body of the `Engine._fill_orders` loop for one waiting order id:
skip orders whose latency-adjusted time is still in the future; offer
`bid1px` to sells and `ask1px` to buys; on `offered >= order.price` open
a position for `min(ask1qty, order.size)` (the source reads `ask1qty`
for both sides), else mark a market order deleted. -/
def fillOne (st : StratState) (row : Row) (oid : Nat) : StratState :=
  match st.orders.find? (fun o2 => o2.oid == oid) with
  | none => st
  | some o =>
    if o.bistTime ≤ row.time then
      match o.side with
      | .S =>
        let offered := row.bid1px
        if offered ≥ o.price then
          positionOpen st oid offered (min row.ask1qty o.size) row.time
        else if o.otype = OType.market then markDeleted st oid else st
      | .B =>
        let offered := row.ask1px
        if offered ≥ o.price then
          positionOpen st oid offered (min row.ask1qty o.size) row.time
        else if o.otype = OType.market then markDeleted st oid else st
    else st

/-- `Engine._fill_orders`: iterate over a snapshot of the waiting-orders
dict taken before the loop. -/
def fillOrders (st : StratState) (row : Row) : StratState :=
  ((waitingOrders st).map TOrder.oid).foldl (fun s oid => fillOne s row oid) st

/-- The body of the `Engine._check_trades` loop for one open trade id:
longs are reviewed against `ask1px`/`ask1qty` and closed when
`trade.sl <= offered or trade.tp >= offered`; shorts against
`bid1px`/`bid1qty`, closed when `trade.sl >= offered or trade.tp <= offered`. -/
def checkOne (st : StratState) (row : Row) (tid : Nat) : StratState :=
  match st.positions.find? (fun t2 => t2.tid == tid) with
  | none => st
  | some t =>
    match t.side with
    | .B =>
      if t.sl ≤ row.ask1px ∨ t.tp ≥ row.ask1px then
        positionClose st tid row.ask1px row.ask1qty row.time
      else st
    | .S =>
      if t.sl ≥ row.bid1px ∨ t.tp ≤ row.bid1px then
        positionClose st tid row.bid1px row.bid1qty row.time
      else st

/-- `Engine._check_trades`: iterate over a snapshot of the open-positions
dict taken before the loop. -/
def checkTrades (st : StratState) (row : Row) : StratState :=
  ((currentPositions st).map Trade.tid).foldl (fun s tid => checkOne s row tid) st

/-- One iteration of the `Engine.run` loop at a row's timestamp:
`_check_trades`, then `_fill_orders` (the base `Strategy.on_update` is a
pass). -/
def engineStep (st : StratState) (row : Row) : StratState :=
  fillOrders (checkTrades st row) row

/-- The `Engine.run` event loop over the snapshot rows. -/
def runRows (st : StratState) (rows : List Row) : StratState :=
  rows.foldl engineStep st

/-- Fold a list of `(price, volume, time)` fill requests through
`Order.execute`. -/
def execMany (o : TOrder) (reqs : List (Int × Int × Int)) : TOrder :=
  reqs.foldl (fun o2 r => o2.execute r.1 r.2.1 r.2.2) o

/-- Modelled from the spec: the cash-conservation accounting
`final_cash = initial_cash - sum(signed_quantity * price)` over every
recorded execution — opening fills signed by the order's side (positive
quantity for buys, negative for sells), closing fills with the opposite
sign of the trade's side. -/
def specCash (initial : Int) (st : StratState) : Int :=
  let openSum := (st.orders.map (fun o =>
    ((o.execData.map (fun r => r.volume * r.price)).sum) *
      (match o.side with | .B => 1 | .S => -1))).sum
  let closeSum := (st.positions.map (fun t =>
    ((t.closeData.map (fun r => r.volume * r.price)).sum) *
      (match t.side with | .B => -1 | .S => 1))).sum
  initial - openSum - closeSum

end Tester

namespace Tester

/-- C2 failing input: an open long with stop-loss 90 and take-profit 110. -/
def c2trade : Trade := ⟨1, .B, 100, 10, 0, 90, 110, []⟩

/-- C2 failing input: the strategy state holding only that long. -/
def c2st : StratState := ⟨0, [], [c2trade], 2⟩

/-- C2 failing input: a snapshot offering ask price 100 with 5 lots,
strictly inside the stop-loss/take-profit band. -/
def c2row : Row := ⟨0, 0, 0, 0, 0, 0, 0, 100, 5, 0, 0, 0, 0⟩

/-- C4 failing input: a visible waiting limit buy with limit price 100. -/
def c4o : TOrder := ⟨1, .B, 10, .limit, 0, 100, 0, 1000, false, []⟩

/-- C4 failing input: the strategy state holding only that buy order. -/
def c4st : StratState := ⟨0, [c4o], [], 1⟩

/-- C4 failing input: a snapshot offering ask price 99 (below the limit)
with 50 lots of ask liquidity. -/
def c4row : Row := ⟨0, 0, 0, 0, 0, 0, 0, 99, 50, 0, 0, 0, 0⟩

/-- C5 failing input: a visible waiting limit sell of size 10 with limit
price 100. -/
def c5o : TOrder := ⟨1, .S, 10, .limit, 0, 100, 0, 1000, false, []⟩

/-- C5 failing input: the strategy state holding only that sell order. -/
def c5st : StratState := ⟨0, [c5o], [], 1⟩

/-- C5 failing input: a snapshot with bid1px 100, bid1qty 50 and
ask1qty 3. -/
def c5row : Row := ⟨0, 50, 100, 0, 0, 0, 0, 0, 3, 0, 0, 0, 0⟩

/-- C6 failing input: a visible sell order of size 5 at price 10, with a
stop that is sure to fire on the next snapshot. -/
def c6o : TOrder := ⟨1, .S, 5, .limit, 0, 10, 1000, 0, false, []⟩

/-- C6 failing input: initial cash 0, only that sell order. -/
def c6st : StratState := ⟨0, [c6o], [], 1⟩

/-- C6 failing input, first snapshot: bid at 10 and 5 ask lots, so the
sell opens a short of 5 at 10. -/
def c6row1 : Row := ⟨0, 5, 10, 0, 0, 0, 0, 0, 5, 0, 0, 0, 0⟩

/-- C6 failing input, second snapshot: bid at 8 with 5 lots, so the short
is closed at 8. -/
def c6row2 : Row := ⟨1, 5, 8, 0, 0, 0, 0, 0, 0, 0, 0, 0, 0⟩

/-- C3 counterexample input: a visible waiting market buy with reference
price 100. -/
def c3o : TOrder := ⟨1, .B, 10, .market, 0, 100, 0, 1000, false, []⟩

/-- C3 counterexample input: the strategy state holding only that order. -/
def c3st : StratState := ⟨0, [c3o], [], 1⟩

/-- C3 counterexample input: a snapshot with ask price 99 (below the
order's reference price) and plenty of ask liquidity. -/
def c3row : Row := ⟨0, 0, 0, 0, 0, 0, 0, 99, 50, 0, 0, 0, 0⟩

end Tester

/-- C2 (code evaluation at the failing input): the offered ask price 100
lies strictly inside the long's stop-loss/take-profit band (90, 110), so
the claim says the position must not be closed — yet `_check_trades`
closes 5 lots of it, because the source tests `trade.sl <= offered or
trade.tp >= offered`, the reverse of `offered <= sl or offered >= tp`. -/
theorem C2_code_closes_inside_band :
    ¬ (Tester.c2row.ask1px ≤ Tester.c2trade.sl ∨ Tester.c2row.ask1px ≥ Tester.c2trade.tp) ∧
      (Tester.checkTrades Tester.c2st Tester.c2row).positions =
        [⟨1, .B, 100, 10, 0, 90, 110, [⟨100, 5, 0⟩]⟩] := by
  exact ⟨by decide, by decide⟩

/-- C4 (code evaluation at the failing input): a visible limit buy with
limit 100 faces ask1px = 99 ≤ 100 with 50 lots available, so the claim
says it fills — yet `_fill_orders` leaves the whole state unchanged,
because the source fills buys on `offered >= order.price`. -/
theorem C4_code_rejects_favorable_buy :
    Tester.c4row.ask1px ≤ Tester.c4o.price ∧
      Tester.fillOrders Tester.c4st Tester.c4row = Tester.c4st := by
  exact ⟨by decide, by decide⟩

/-- C5 (code evaluation at the failing input): a visible limit sell of
size 10 faces bid1qty = 50, so the claim's fill is
`min(waiting, bid1qty) = 10` — yet the code fills only 3, the ask-side
top-of-book quantity, because `_fill_orders` sizes both sides' fills
from `ask1qty`. -/
theorem C5_sell_fill_uses_ask_side_quantity :
    min Tester.c5o.waitingVolume Tester.c5row.bid1qty = 10 ∧
      (Tester.fillOrders Tester.c5st Tester.c5row).orders =
        [{ Tester.c5o with execData := [⟨100, 3, 0⟩] }] := by
  exact ⟨by decide, by decide⟩

/-- C6 (code evaluation at the failing input): a short of 5 lots opens at
price 10 (cash rises to 50) and is closed at price 8, so the claim's
signed-notional accounting gives final cash 10 — yet the run ends with
cash 50, unchanged by the close, because `position_close`'s short branch
tests `trade.size=='S'` (the numeric size against a string) and never
adjusts cash. -/
theorem C6_short_close_never_adjusts_cash :
    (Tester.runRows Tester.c6st [Tester.c6row1, Tester.c6row2]).cash = 50 ∧
      Tester.specCash 0 (Tester.runRows Tester.c6st [Tester.c6row1, Tester.c6row2]) = 10 ∧
      (Tester.runRows Tester.c6st [Tester.c6row1, Tester.c6row2]).cash ≠
        Tester.specCash 0 (Tester.runRows Tester.c6st [Tester.c6row1, Tester.c6row2]) := by
  exact ⟨by decide, by decide, by decide⟩

/-- C3 (counterexample): a waiting market buy is visible at the snapshot
(bist time 0 ≤ row time 0) and its fill condition fails (ask 99 < price
100), so the claim says it stays in the waiting set — yet after
`_fill_orders` it is marked deleted and the waiting set is empty. -/
theorem C3_counterexample :
    (Tester.waitingOrders Tester.c3st).map Tester.TOrder.oid = [1] ∧
      Tester.c3o.bistTime ≤ Tester.c3row.time ∧
      (Tester.fillOrders Tester.c3st Tester.c3row).orders =
        [{ Tester.c3o with deleted := true }] ∧
      Tester.waitingOrders (Tester.fillOrders Tester.c3st Tester.c3row) = [] := by
  exact ⟨by decide, by decide, by decide, by decide⟩

namespace Tester

/-- Executing one request changes the waiting volume by the clamped
amount. -/
lemma waitingVolume_execute (o : TOrder) (p v t : Int) :
    (o.execute p v t).waitingVolume =
      o.waitingVolume - (if v > o.waitingVolume then o.waitingVolume else v) := by
  simp only [TOrder.execute, TOrder.waitingVolume, List.map_append, List.sum_append,
    List.map_cons, List.map_nil, List.sum_cons, List.sum_nil]
  ring

/-- After a clamped execution the waiting volume is non-negative. -/
lemma waitingVolume_execute_nonneg (o : TOrder) (p v t : Int) :
    0 ≤ (o.execute p v t).waitingVolume := by
  rw [waitingVolume_execute]
  split_ifs with hv <;> omega

/-- `Order.execute` never changes the requested size. -/
lemma execMany_size (o : TOrder) (reqs : List (Int × Int × Int)) :
    (execMany o reqs).size = o.size := by
  induction reqs generalizing o with
  | nil => rfl
  | cons r rs ih =>
    simpa [execMany, TOrder.execute] using ih (o.execute r.1 r.2.1 r.2.2)

/-- The waiting volume stays non-negative through any request sequence. -/
lemma execMany_waitingVolume_nonneg (o : TOrder) (reqs : List (Int × Int × Int))
    (h : 0 ≤ o.waitingVolume) : 0 ≤ (execMany o reqs).waitingVolume := by
  induction reqs generalizing o with
  | nil => exact h
  | cons r rs ih =>
    simpa [execMany] using ih _ (waitingVolume_execute_nonneg o r.1 r.2.1 r.2.2)

/-- C10 concrete input: a fresh order of size 3. -/
def c10o : TOrder := ⟨1, .B, 3, .market, 0, 0, 0, 0, false, []⟩

end Tester

/-- C10: starting from any order whose waiting volume is non-negative (a
fresh order has waiting volume equal to its requested size), any
sequence of `Order.execute` requests — of any volumes, even larger than
what remains — leaves the waiting volume non-negative and the recorded
fills summing to at most the requested size, because each request is
clamped to the current waiting volume before being recorded. -/
theorem C10_clamped_fills_never_exceed_size (o : Tester.TOrder)
    (reqs : List (Int × Int × Int)) (h : 0 ≤ o.waitingVolume) :
    0 ≤ (Tester.execMany o reqs).waitingVolume ∧
      (((Tester.execMany o reqs).execData.map Tester.ExecRec.volume)).sum ≤ o.size := by
  have h1 := Tester.execMany_waitingVolume_nonneg o reqs h
  have h2 := Tester.execMany_size o reqs
  refine ⟨h1, ?_⟩
  simp only [Tester.TOrder.waitingVolume] at h1
  omega

/-- Witness for C10 at a concrete input: a fresh order of size 3 receives
a request for 5 lots; the waiting volume stays non-negative and the
recorded fills do not exceed 3. -/
theorem C10_witness :
    0 ≤ Tester.c10o.waitingVolume ∧
      (0 ≤ (Tester.execMany Tester.c10o [(10, 5, 0)]).waitingVolume ∧
        (((Tester.execMany Tester.c10o [(10, 5, 0)]).execData.map
            Tester.ExecRec.volume)).sum ≤ Tester.c10o.size) :=
  ⟨by decide, C10_clamped_fills_never_exceed_size Tester.c10o [(10, 5, 0)] (by decide)⟩

namespace Tester

/-- Members with equal ids coincide when the id list has no duplicates. -/
lemma eq_of_mem_oid {l : List TOrder} (hnd : (l.map TOrder.oid).Nodup)
    {x y : TOrder} (hx : x ∈ l) (hy : y ∈ l) (hoid : x.oid = y.oid) : x = y :=
  List.inj_on_of_nodup_map hnd hx hy hoid

/-- The per-order update applied by a fill of order id `k`. -/
def execUpd (k : Nat) (px vol t : Int) : TOrder → TOrder :=
  fun o2 => if o2.oid = k then o2.execute px vol t else o2

/-- The per-order update applied by a deletion of order id `k`. -/
def delUpd (k : Nat) : TOrder → TOrder :=
  fun o2 => if o2.oid = k then { o2 with deleted := true } else o2

/-- `position_open` touches the orders dict only through the one aliased
order object: the orders list is rewritten pointwise by `execUpd`. -/
lemma positionOpen_orders (s : StratState) (k : Nat) (price volume time : Int)
    (o : TOrder) (hfind : s.orders.find? (fun o2 => o2.oid == k) = some o) :
    (positionOpen s k price volume time).orders =
      s.orders.map (execUpd k price volume time) := by
  simp only [positionOpen, hfind]
  cases o.side <;> simp [updateOrder, execUpd]

/-- Marking an order deleted rewrites the orders list pointwise by
`delUpd`. -/
lemma markDeleted_orders (s : StratState) (k : Nat) :
    (markDeleted s k).orders = s.orders.map (delUpd k) := rfl

/-- One step of the fill pass rewrites the orders list pointwise by a
function that only touches the processed id, preserves ids and
latency-adjusted times, and can only append a fill record carrying the
row's timestamp to an order that was already visible at the row. -/
lemma fillOne_shape (s : StratState) (row : Row) (k : Nat)
    (hnd : (s.orders.map TOrder.oid).Nodup) :
    ∃ h : TOrder → TOrder,
      (fillOne s row k).orders = s.orders.map h ∧
      (∀ x, (h x).oid = x.oid) ∧
      (∀ x, (h x).bistTime = x.bistTime) ∧
      (∀ x, x.oid ≠ k → h x = x) ∧
      (∀ x, x ∈ s.orders →
        (h x).execData = x.execData ∨
          ∃ px v, (h x).execData = x.execData ++ [⟨px, v, row.time⟩] ∧
            x.bistTime ≤ row.time) := by
  cases hfind : s.orders.find? (fun o2 => o2.oid == k) with
  | none =>
    refine ⟨id, ?_, fun x => rfl, fun x => rfl, fun x _ => rfl, fun x _ => Or.inl rfl⟩
    simp [fillOne, hfind]
  | some o =>
    have hmem : o ∈ s.orders := List.mem_of_find?_eq_some hfind
    have hoid : o.oid = k := by simpa using List.find?_some hfind
    by_cases hb : o.bistTime ≤ row.time
    · have hexecCase : ∀ px vol,
          (∀ x, x ∈ s.orders →
            (execUpd k px vol row.time x).execData = x.execData ∨
              ∃ px2 v2, (execUpd k px vol row.time x).execData =
                  x.execData ++ [⟨px2, v2, row.time⟩] ∧ x.bistTime ≤ row.time) := by
        intro px vol x hx
        by_cases hxk : x.oid = k
        · have hxo : x = o := eq_of_mem_oid hnd hx hmem (hxk.trans hoid.symm)
          refine Or.inr ⟨px, if vol > x.waitingVolume then x.waitingVolume else vol, ?_, ?_⟩
          · simp [execUpd, hxk, TOrder.execute]
          · rw [hxo]; exact hb
        · exact Or.inl (by simp [execUpd, hxk])
      have hdelCase : ∀ x, x ∈ s.orders →
          (delUpd k x).execData = x.execData ∨
            ∃ px2 v2, (delUpd k x).execData = x.execData ++ [⟨px2, v2, row.time⟩] ∧
              x.bistTime ≤ row.time := by
        intro x _
        by_cases hxk : x.oid = k <;> exact Or.inl (by simp [delUpd, hxk])
      cases hside : o.side with
      | S =>
        by_cases hpx : row.bid1px ≥ o.price
        · refine ⟨execUpd k row.bid1px (min row.ask1qty o.size) row.time, ?_, ?_, ?_, ?_,
            hexecCase _ _⟩
          · simp only [fillOne, hfind, hside, if_pos hb, if_pos hpx]
            exact positionOpen_orders s k _ _ _ o hfind
          · intro x; by_cases hxk : x.oid = k <;> simp [execUpd, hxk, TOrder.execute]
          · intro x; by_cases hxk : x.oid = k <;> simp [execUpd, hxk, TOrder.execute]
          · intro x hxk; simp [execUpd, hxk]
        · by_cases hmt : o.otype = OType.market
          · refine ⟨delUpd k, ?_, ?_, ?_, ?_, hdelCase⟩
            · simp only [fillOne, hfind, hside, if_pos hb, if_neg hpx, if_pos hmt]
              exact markDeleted_orders s k
            · intro x; by_cases hxk : x.oid = k <;> simp [delUpd, hxk]
            · intro x; by_cases hxk : x.oid = k <;> simp [delUpd, hxk]
            · intro x hxk; simp [delUpd, hxk]
          · refine ⟨id, ?_, fun x => rfl, fun x => rfl, fun x _ => rfl, fun x _ => Or.inl rfl⟩
            simp [fillOne, hfind, hside, if_pos hb, if_neg hpx, if_neg hmt]
      | B =>
        by_cases hpx : row.ask1px ≥ o.price
        · refine ⟨execUpd k row.ask1px (min row.ask1qty o.size) row.time, ?_, ?_, ?_, ?_,
            hexecCase _ _⟩
          · simp only [fillOne, hfind, hside, if_pos hb, if_pos hpx]
            exact positionOpen_orders s k _ _ _ o hfind
          · intro x; by_cases hxk : x.oid = k <;> simp [execUpd, hxk, TOrder.execute]
          · intro x; by_cases hxk : x.oid = k <;> simp [execUpd, hxk, TOrder.execute]
          · intro x hxk; simp [execUpd, hxk]
        · by_cases hmt : o.otype = OType.market
          · refine ⟨delUpd k, ?_, ?_, ?_, ?_, hdelCase⟩
            · simp only [fillOne, hfind, hside, if_pos hb, if_neg hpx, if_pos hmt]
              exact markDeleted_orders s k
            · intro x; by_cases hxk : x.oid = k <;> simp [delUpd, hxk]
            · intro x; by_cases hxk : x.oid = k <;> simp [delUpd, hxk]
            · intro x hxk; simp [delUpd, hxk]
          · refine ⟨id, ?_, fun x => rfl, fun x => rfl, fun x _ => rfl, fun x _ => Or.inl rfl⟩
            simp [fillOne, hfind, hside, if_pos hb, if_neg hpx, if_neg hmt]
    · refine ⟨id, ?_, fun x => rfl, fun x => rfl, fun x _ => rfl, fun x _ => Or.inl rfl⟩
      simp [fillOne, hfind, hb]

end Tester

namespace Tester

/-- A fill step never changes the list of order ids. -/
lemma fillOne_map_oid (s : StratState) (row : Row) (k : Nat)
    (hnd : (s.orders.map TOrder.oid).Nodup) :
    (fillOne s row k).orders.map TOrder.oid = s.orders.map TOrder.oid := by
  obtain ⟨h, horders, hoid, -, -, -⟩ := fillOne_shape s row k hnd
  rw [horders, List.map_map]
  exact List.map_congr_left (fun x _ => hoid x)

/-- Filtering by an id commutes with an id-preserving pointwise update. -/
lemma filter_oid_map (l : List TOrder) (h : TOrder → TOrder) (j : Nat)
    (hoid : ∀ x, (h x).oid = x.oid) :
    (l.map h).filter (fun o2 => o2.oid == j) =
      (l.filter (fun o2 => o2.oid == j)).map h := by
  induction l with
  | nil => rfl
  | cons x xs ih =>
    simp only [List.map_cons, List.filter_cons, hoid]
    by_cases hx : x.oid = j <;> simp [hx, ih]

/-- With unique ids, filtering by a member's id yields that member alone. -/
lemma filter_oid_singleton (l : List TOrder) (o : TOrder)
    (hnd : (l.map TOrder.oid).Nodup) (ho : o ∈ l) :
    l.filter (fun o2 => o2.oid == o.oid) = [o] := by
  induction l with
  | nil => cases ho
  | cons x xs ih =>
    simp only [List.map_cons, List.nodup_cons] at hnd
    rcases List.mem_cons.mp ho with rfl | hmem
    · rw [List.filter_cons_of_pos (by simp)]
      have : xs.filter (fun o2 => o2.oid == o.oid) = [] := by
        refine List.filter_eq_nil_iff.mpr (fun y hy hyo => ?_)
        exact hnd.1 ((by simpa using hyo : y.oid = o.oid) ▸ List.mem_map_of_mem TOrder.oid hy)
      rw [this]
    · have hxo : x.oid ≠ o.oid := by
        intro hx
        exact hnd.1 (by rw [hx]; exact List.mem_map_of_mem TOrder.oid hmem)
      rw [List.filter_cons_of_neg (by simpa using hxo)]
      exact ih hnd.2 hmem

/-- `find?` is the head of the filtered list. -/
lemma find?_eq_head?_filter (l : List TOrder) (p : TOrder → Bool) :
    l.find? p = (l.filter p).head? := by
  induction l with
  | nil => rfl
  | cons x xs ih =>
    by_cases hx : p x = true
    · rw [List.find?_cons_of_pos _ hx, List.filter_cons_of_pos hx]
      rfl
    · rw [List.find?_cons_of_neg _ hx, List.filter_cons_of_neg hx]
      exact ih

/-- Folding fill steps over ids not containing `j` leaves the orders with
id `j` untouched. -/
lemma foldl_fillOne_filter (row : Row) (ks : List Nat) :
    ∀ (s : StratState), (s.orders.map TOrder.oid).Nodup → ∀ j, j ∉ ks →
      ((ks.foldl (fun s2 k => fillOne s2 row k) s).orders.filter (fun o2 => o2.oid == j)) =
        s.orders.filter (fun o2 => o2.oid == j) := by
  induction ks with
  | nil => intro s _ j _; rfl
  | cons k ks ih =>
    intro s hnd j hj
    have hjk : j ≠ k := fun e => hj (e ▸ List.mem_cons_self k ks)
    obtain ⟨h, horders, hoid, -, hfix, -⟩ := fillOne_shape s row k hnd
    have hnd2 : ((fillOne s row k).orders.map TOrder.oid).Nodup := by
      rw [fillOne_map_oid s row k hnd]; exact hnd
    have hks : j ∉ ks := fun hm => hj (List.mem_cons_of_mem k hm)
    rw [List.foldl_cons, ih _ hnd2 j hks, horders, filter_oid_map _ h j hoid]
    have hfixmem : ∀ x ∈ s.orders.filter (fun o2 => o2.oid == j), h x = x := by
      intro x hx
      have hxj : x.oid = j := by simpa using (List.mem_filter.mp hx).2
      refine hfix x ?_
      rw [hxj]
      exact hjk
    rw [List.map_congr_left hfixmem]
    simp

/-- Folding fill steps never changes the list of order ids. -/
lemma foldl_fillOne_map_oid (row : Row) (ks : List Nat) :
    ∀ (s : StratState), (s.orders.map TOrder.oid).Nodup →
      ((ks.foldl (fun s2 k => fillOne s2 row k) s).orders.map TOrder.oid) =
        s.orders.map TOrder.oid := by
  induction ks with
  | nil => intro s _; rfl
  | cons k ks ih =>
    intro s hnd
    have hnd2 : ((fillOne s row k).orders.map TOrder.oid).Nodup := by
      rw [fillOne_map_oid s row k hnd]; exact hnd
    rw [List.foldl_cons, ih _ hnd2, fillOne_map_oid s row k hnd]

end Tester

/-- C3 (amended): a waiting market order that is visible at the snapshot
but whose price condition fails there (offered ask below a buy's
reference price, offered bid below a sell's) is marked deleted by the
fill pass, dropping out of the waiting set instead of staying. -/
theorem C3_amended_market_order_rejected (st : Tester.StratState) (row : Tester.Row)
    (o : Tester.TOrder)
    (hnd : (st.orders.map Tester.TOrder.oid).Nodup)
    (hmem : o ∈ st.orders) (hwait : 0 < o.waitingVolume) (hdel : o.deleted = false)
    (hvis : o.bistTime ≤ row.time) (htype : o.otype = Tester.OType.market)
    (hfail : (o.side = Models.Side.B ∧ row.ask1px < o.price) ∨
      (o.side = Models.Side.S ∧ row.bid1px < o.price)) :
    ∃ o2 ∈ (Tester.fillOrders st row).orders, o2.oid = o.oid ∧ o2.deleted = true := by
  classical
  have hwo : o ∈ Tester.waitingOrders st :=
    List.mem_filter.mpr ⟨hmem, by simp [hwait, hdel]⟩
  have hid : o.oid ∈ (Tester.waitingOrders st).map Tester.TOrder.oid :=
    List.mem_map_of_mem _ hwo
  have hndids : ((Tester.waitingOrders st).map Tester.TOrder.oid).Nodup :=
    hnd.sublist ((List.filter_sublist st.orders).map Tester.TOrder.oid)
  obtain ⟨l1, l2, hsplit⟩ := List.append_of_mem hid
  have hnl : o.oid ∉ l1 ∧ o.oid ∉ l2 := by
    rw [hsplit, List.nodup_append] at hndids
    exact ⟨fun hm => hndids.2.2 hm (List.mem_cons_self _ _), (List.nodup_cons.mp hndids.2.1).1⟩
  simp only [Tester.fillOrders, hsplit, List.foldl_append, List.foldl_cons]
  set s1 := l1.foldl (fun s2 k => Tester.fillOne s2 row k) st with hs1
  have hfilter1 : s1.orders.filter (fun o2 => o2.oid == o.oid) = [o] := by
    rw [hs1, Tester.foldl_fillOne_filter row l1 st hnd o.oid hnl.1,
      Tester.filter_oid_singleton st.orders o hnd hmem]
  have hnd1 : (s1.orders.map Tester.TOrder.oid).Nodup := by
    rw [hs1, Tester.foldl_fillOne_map_oid row l1 st hnd]; exact hnd
  have hfind1 : s1.orders.find? (fun o2 => o2.oid == o.oid) = some o := by
    rw [Tester.find?_eq_head?_filter, hfilter1]; rfl
  have hs2orders : (Tester.fillOne s1 row o.oid).orders = s1.orders.map (Tester.delUpd o.oid) := by
    rcases hfail with ⟨hside, hpx⟩ | ⟨hside, hpx⟩
    · simp only [Tester.fillOne, hfind1, hside, if_pos hvis, if_neg (not_le.mpr hpx),
        if_pos htype]
      exact Tester.markDeleted_orders s1 o.oid
    · simp only [Tester.fillOne, hfind1, hside, if_pos hvis, if_neg (not_le.mpr hpx),
        if_pos htype]
      exact Tester.markDeleted_orders s1 o.oid
  have hdeloid : ∀ x : Tester.TOrder, (Tester.delUpd o.oid x).oid = x.oid := by
    intro x; by_cases hx : x.oid = o.oid <;> simp [Tester.delUpd, hx]
  have hfilter2 : (Tester.fillOne s1 row o.oid).orders.filter (fun o2 => o2.oid == o.oid) =
      [{ o with deleted := true }] := by
    rw [hs2orders, Tester.filter_oid_map _ _ _ hdeloid, hfilter1]
    simp [Tester.delUpd]
  have hnd2 : ((Tester.fillOne s1 row o.oid).orders.map Tester.TOrder.oid).Nodup := by
    rw [Tester.fillOne_map_oid s1 row o.oid hnd1]; exact hnd1
  have hfinal : (l2.foldl (fun s2 k => Tester.fillOne s2 row k)
        (Tester.fillOne s1 row o.oid)).orders.filter (fun o2 => o2.oid == o.oid) =
      [{ o with deleted := true }] := by
    rw [Tester.foldl_fillOne_filter row l2 _ hnd2 o.oid hnl.2, hfilter2]
  refine ⟨{ o with deleted := true }, ?_, rfl, rfl⟩
  exact List.mem_of_mem_filter (by rw [hfinal]; exact List.mem_singleton_self _)

/-- Witness for C3's amended theorem at the counterexample input: the
market buy with reference price 100 facing ask 99 ends up deleted. -/
theorem C3_amended_witness :
    ((Tester.c3st.orders.map Tester.TOrder.oid).Nodup ∧
        Tester.c3o ∈ Tester.c3st.orders ∧ 0 < Tester.c3o.waitingVolume ∧
        Tester.c3o.deleted = false ∧ Tester.c3o.bistTime ≤ Tester.c3row.time ∧
        Tester.c3o.otype = Tester.OType.market ∧
        ((Tester.c3o.side = Models.Side.B ∧ Tester.c3row.ask1px < Tester.c3o.price) ∨
          (Tester.c3o.side = Models.Side.S ∧ Tester.c3row.bid1px < Tester.c3o.price))) ∧
      ∃ o2 ∈ (Tester.fillOrders Tester.c3st Tester.c3row).orders,
        o2.oid = Tester.c3o.oid ∧ o2.deleted = true :=
  ⟨⟨by decide, by decide, by decide, by decide, by decide, by decide, by decide⟩,
    C3_amended_market_order_rejected Tester.c3st Tester.c3row Tester.c3o (by decide)
      (by decide) (by decide) (by decide) (by decide) (by decide) (by decide)⟩

namespace Tester

/-- How one fill pass can relate an updated order to its original: same
id, same latency-adjusted time, and any new fill record carries the
row's timestamp and requires the order to have been visible there. -/
def fillRel (row : Row) (o2 o : TOrder) : Prop :=
  o2.oid = o.oid ∧ o2.bistTime = o.bistTime ∧
    ∀ r ∈ o2.execData, r ∈ o.execData ∨ (r.time = row.time ∧ o.bistTime ≤ row.time)

/-- `fillRel` is reflexive. -/
lemma fillRel_refl (row : Row) (o : TOrder) : fillRel row o o :=
  ⟨rfl, rfl, fun _ hr => Or.inl hr⟩

/-- Folding fill steps relates every resulting order to an original by
`fillRel`. -/
lemma foldl_fillOne_rel (row : Row) (ks : List Nat) :
    ∀ (s : StratState), (s.orders.map TOrder.oid).Nodup →
      ∀ o2 ∈ (ks.foldl (fun s2 k => fillOne s2 row k) s).orders,
        ∃ o ∈ s.orders, fillRel row o2 o := by
  induction ks with
  | nil => exact fun s _ o2 h2 => ⟨o2, h2, fillRel_refl row o2⟩
  | cons k ks ih =>
    intro s hnd o2 h2
    obtain ⟨h, horders, hoid, hbist, -, hexec⟩ := fillOne_shape s row k hnd
    have hnd2 : ((fillOne s row k).orders.map TOrder.oid).Nodup := by
      rw [fillOne_map_oid s row k hnd]; exact hnd
    rw [List.foldl_cons] at h2
    obtain ⟨o1, h1mem, hrel1⟩ := ih (fillOne s row k) hnd2 o2 h2
    rw [horders] at h1mem
    obtain ⟨x, hxmem, hxeq⟩ := List.mem_map.mp h1mem
    refine ⟨x, hxmem, hrel1.1.trans (hxeq ▸ hoid x), hrel1.2.1.trans (hxeq ▸ hbist x), ?_⟩
    intro r hr
    rcases hrel1.2.2 r hr with hrold | ⟨hrt, hrb⟩
    · rw [← hxeq] at hrold
      rcases hexec x hxmem with heq | ⟨px, v, heq, hvb⟩
      · rw [heq] at hrold
        exact Or.inl hrold
      · rw [heq] at hrold
        rcases List.mem_append.mp hrold with hrx | hrnew
        · exact Or.inl hrx
        · refine Or.inr ⟨?_, hvb⟩
          rw [List.mem_singleton.mp hrnew]
    · refine Or.inr ⟨hrt, ?_⟩
      rw [← (hxeq ▸ hbist x : o1.bistTime = x.bistTime)]
      exact hrb

/-- `position_close` does not touch the orders dict. -/
lemma positionClose_orders (s : StratState) (tid : Nat) (price vol t : Int) :
    (positionClose s tid price vol t).orders = s.orders := by
  unfold positionClose
  cases hfind : s.positions.find? (fun t2 => t2.tid == tid) with
  | none => rfl
  | some t0 =>
    dsimp only
    split <;> simp [updateTrade]

/-- One position-review step does not touch the orders dict. -/
lemma checkOne_orders (s : StratState) (row : Row) (tid : Nat) :
    (checkOne s row tid).orders = s.orders := by
  unfold checkOne
  cases hfind : s.positions.find? (fun t2 => t2.tid == tid) with
  | none => rfl
  | some t =>
    dsimp only
    split <;> split <;> simp [positionClose_orders]

/-- `_check_trades` does not touch the orders dict. -/
lemma checkTrades_orders (s : StratState) (row : Row) :
    (checkTrades s row).orders = s.orders := by
  unfold checkTrades
  generalize (currentPositions s).map Trade.tid = tids
  induction tids generalizing s with
  | nil => rfl
  | cons t ts ih => rw [List.foldl_cons, ih, checkOne_orders]

/-- How a whole run can relate a final order to its initial version:
same id and latency-adjusted time, and every fill record either already
existed or was recorded at some processed row whose timestamp is at or
after the order's visible time. -/
def runRel (rows : List Row) (o2 o : TOrder) : Prop :=
  o2.oid = o.oid ∧ o2.bistTime = o.bistTime ∧
    ∀ r ∈ o2.execData, r ∈ o.execData ∨
      ∃ row ∈ rows, r.time = row.time ∧ o.bistTime ≤ row.time

end Tester

/-- C7: for every strategy order, no fill is ever recorded against a
snapshot earlier than its latency-adjusted visible time: after running
the engine over any snapshot rows, every order matches an initial order
with the same id and visible time, and each of its fill records either
pre-existed or was recorded at a processed row whose timestamp is at or
after that visible time (`_fill_orders` only touches orders with
`order.bist_time <= current_time`, and `bist_time` is set once at
construction). -/
theorem C7_no_lookahead (st : Tester.StratState) (rows : List Tester.Row)
    (hnd : (st.orders.map Tester.TOrder.oid).Nodup) :
    ∀ o2 ∈ (Tester.runRows st rows).orders, ∃ o ∈ st.orders, Tester.runRel rows o2 o := by
  induction rows generalizing st with
  | nil => exact fun o2 h2 => ⟨o2, h2, rfl, rfl, fun _ hr => Or.inl hr⟩
  | cons row rows ih =>
    intro o2 h2
    have hndC : ((Tester.checkTrades st row).orders.map Tester.TOrder.oid).Nodup := by
      rw [Tester.checkTrades_orders]; exact hnd
    have hndF : ((Tester.fillOrders (Tester.checkTrades st row) row).orders.map
        Tester.TOrder.oid).Nodup := by
      rw [Tester.fillOrders, Tester.foldl_fillOne_map_oid row _ _ hndC]; exact hndC
    rw [Tester.runRows, List.foldl_cons] at h2
    obtain ⟨o1, h1mem, hrel1⟩ := ih (Tester.engineStep st row) hndF o2 h2
    have h1rel : ∃ o ∈ st.orders, Tester.fillRel row o1 o := by
      have := Tester.foldl_fillOne_rel row ((Tester.waitingOrders
          (Tester.checkTrades st row)).map Tester.TOrder.oid) (Tester.checkTrades st row)
          hndC o1 h1mem
      rw [Tester.checkTrades_orders] at this
      exact this
    obtain ⟨o, homem, hrelF⟩ := h1rel
    refine ⟨o, homem, hrel1.1.trans hrelF.1, hrel1.2.1.trans hrelF.2.1, ?_⟩
    intro r hr
    rcases hrel1.2.2 r hr with hrold | ⟨row2, hrow2, hrt, hrb⟩
    · rcases hrelF.2.2 r hrold with hre | ⟨hrt, hrb⟩
      · exact Or.inl hre
      · exact Or.inr ⟨row, List.mem_cons_self row rows, hrt, hrb⟩
    · refine Or.inr ⟨row2, List.mem_cons_of_mem row hrow2, hrt, ?_⟩
      rw [← hrelF.2.1]
      exact hrb

/-- C7 concrete input: one visible buy order. -/
def c7o : Tester.TOrder := ⟨1, .B, 10, .limit, 5, 100, 0, 1000, false, []⟩

/-- C7 concrete input: the strategy state holding only that order. -/
def c7st : Tester.StratState := ⟨0, [c7o], [], 1⟩

/-- C7 concrete input: one snapshot row at time 6 with ask 90. -/
def c7row : Tester.Row := ⟨6, 0, 0, 0, 0, 0, 0, 90, 4, 0, 0, 0, 0⟩

/-- Witness for C7 at a concrete input. -/
theorem C7_witness :
    (c7st.orders.map Tester.TOrder.oid).Nodup ∧
      ∀ o2 ∈ (Tester.runRows c7st [c7row]).orders,
        ∃ o ∈ c7st.orders, Tester.runRel [c7row] o2 o :=
  ⟨by decide, C7_no_lookahead c7st [c7row] (by decide)⟩

section AssocLemmas

variable {α β : Type} [DecidableEq α]

/-- A successful lookup result is a member. -/
lemma alookup_mem {l : List (α × β)} {a : α} {b : β} (h : alookup l a = some b) :
    (a, b) ∈ l := by
  induction l with
  | nil => cases h
  | cons kv l ih =>
    obtain ⟨k, v⟩ := kv
    rw [alookup] at h
    by_cases hk : k = a
    · rw [if_pos hk] at h
      rw [hk, Option.some_inj.mp h]
      exact List.mem_cons_self _ _
    · rw [if_neg hk] at h
      exact List.mem_cons_of_mem _ (ih h)

/-- A successful lookup key is a key. -/
lemma mem_keys_of_alookup {l : List (α × β)} {a : α} {b : β} (h : alookup l a = some b) :
    a ∈ keys l :=
  List.mem_map_of_mem Prod.fst (alookup_mem h) 

/-- Lookup of an absent key fails. -/
lemma alookup_eq_none {l : List (α × β)} {a : α} (h : a ∉ keys l) : alookup l a = none := by
  induction l with
  | nil => rfl
  | cons kv l ih =>
    obtain ⟨k, v⟩ := kv
    have hk : ¬ k = a := fun e => h (by simp only [keys, List.map_cons]; exact List.mem_cons.mpr (Or.inl e.symm))
    rw [alookup, if_neg hk]
    exact ih (fun e => h (by simp only [keys, List.map_cons]; exact List.mem_cons_of_mem _ e))

/-- Lookup of a present key succeeds. -/
lemma alookup_isSome {l : List (α × β)} {a : α} (h : a ∈ keys l) :
    ∃ b, alookup l a = some b := by
  induction l with
  | nil => cases h
  | cons kv l ih =>
    obtain ⟨k, v⟩ := kv
    by_cases hk : k = a
    · exact ⟨v, by rw [alookup, if_pos hk]⟩
    · rcases List.mem_cons.mp h with he | hm
      · exact absurd he.symm hk
      · obtain ⟨b, hb⟩ := ih hm
        exact ⟨b, by rw [alookup, if_neg hk]; exact hb⟩

/-- With distinct keys, membership determines the lookup. -/
lemma mem_alookup {l : List (α × β)} (hnd : (keys l).Nodup) {a : α} {b : β}
    (h : (a, b) ∈ l) : alookup l a = some b := by
  induction l with
  | nil => cases h
  | cons kv l ih =>
    obtain ⟨k, v⟩ := kv
    simp only [keys, List.map_cons, List.nodup_cons] at hnd
    rcases List.mem_cons.mp h with he | hm
    · have h1 : a = k := congrArg Prod.fst he
      have h2 : b = v := congrArg Prod.snd he
      rw [alookup, if_pos h1.symm, h2]
    · have hka : k ≠ a := by
        intro e
        exact hnd.1 (e ▸ List.mem_map_of_mem Prod.fst hm)
      rw [alookup, if_neg hka]
      exact ih hnd.2 hm

/-- With distinct keys, two bindings of one key coincide. -/
lemma mem_unique_key {l : List (α × β)} (hnd : (keys l).Nodup) {a : α} {b1 b2 : β}
    (h1 : (a, b1) ∈ l) (h2 : (a, b2) ∈ l) : b1 = b2 := by
  have e1 := mem_alookup hnd h1
  have e2 := mem_alookup hnd h2
  rw [e1] at e2
  exact Option.some_inj.mp e2

/-- `amodify` keeps the key list unchanged. -/
lemma keys_amodify (l : List (α × β)) (a : α) (f : β → β) : keys (amodify l a f) = keys l := by
  induction l with
  | nil => rfl
  | cons kv l ih =>
    obtain ⟨k, v⟩ := kv
    rw [amodify]
    by_cases hk : k = a
    · rw [if_pos hk]; rfl
    · rw [if_neg hk]
      simp only [keys, List.map_cons] at ih ⊢
      rw [ih]

/-- Looking up the modified key maps the old value. -/
lemma alookup_amodify_self (l : List (α × β)) (a : α) (f : β → β) :
    alookup (amodify l a f) a = (alookup l a).map f := by
  induction l with
  | nil => rfl
  | cons kv l ih =>
    obtain ⟨k, v⟩ := kv
    rw [amodify]
    by_cases hk : k = a
    · rw [if_pos hk, alookup, if_pos hk, alookup, if_pos hk]
      rfl
    · rw [if_neg hk, alookup, if_neg hk, alookup, if_neg hk]
      exact ih

/-- Looking up another key ignores the modification. -/
lemma alookup_amodify_ne (l : List (α × β)) {a c : α} (f : β → β) (h : c ≠ a) :
    alookup (amodify l a f) c = alookup l c := by
  induction l with
  | nil => rfl
  | cons kv l ih =>
    obtain ⟨k, v⟩ := kv
    rw [amodify]
    by_cases hk : k = a
    · rw [if_pos hk, alookup, alookup]
      have hkc : ¬ k = c := fun e => h (e.symm.trans hk)
      rw [if_neg hkc, if_neg hkc]
    · rw [if_neg hk, alookup, alookup]
      by_cases hkc : k = c
      · rw [if_pos hkc, if_pos hkc]
      · rw [if_neg hkc, if_neg hkc]
        exact ih

/-- Membership in a modified association list, given distinct keys. -/
lemma mem_amodify_iff {l : List (α × β)} (hnd : (keys l).Nodup) {a : α} {f : β → β}
    {pq : α × β} :
    pq ∈ amodify l a f ↔
      (pq.1 ≠ a ∧ pq ∈ l) ∨ (∃ v, alookup l a = some v ∧ pq = (a, f v)) := by
  induction l with
  | nil => simp [amodify, alookup]
  | cons kv l ih =>
    obtain ⟨k, v⟩ := kv
    simp only [keys, List.map_cons, List.nodup_cons] at hnd
    rw [amodify]
    by_cases hk : k = a
    · subst hk
      rw [if_pos rfl]
      constructor
      · intro hm
        rcases List.mem_cons.mp hm with he | hm2
        · exact Or.inr ⟨v, by rw [alookup, if_pos rfl], he⟩
        · have hne : pq.1 ≠ k := by
            intro e
            exact hnd.1 (e ▸ List.mem_map_of_mem Prod.fst hm2)
          exact Or.inl ⟨hne, List.mem_cons_of_mem _ hm2⟩
      · rintro (⟨hne, hm⟩ | ⟨w, hw, he⟩)
        · rcases List.mem_cons.mp hm with he | hm2
          · exact absurd (congrArg Prod.fst he) hne
          · exact List.mem_cons_of_mem _ hm2
        · rw [alookup, if_pos rfl] at hw
          rw [he, ← Option.some_inj.mp hw]
          exact List.mem_cons_self _ _
    · rw [if_neg hk]
      constructor
      · intro hm
        rcases List.mem_cons.mp hm with he | hm2
        · refine Or.inl ⟨?_, by rw [he]; exact List.mem_cons_self _ _⟩
          rw [he]
          exact hk
        · rcases (ih hnd.2).mp hm2 with ⟨hne, hmm⟩ | ⟨w, hw, he⟩
          · exact Or.inl ⟨hne, List.mem_cons_of_mem _ hmm⟩
          · exact Or.inr ⟨w, by rw [alookup, if_neg hk]; exact hw, he⟩
      · rintro (⟨hne, hm⟩ | ⟨w, hw, he⟩)
        · rcases List.mem_cons.mp hm with he | hm2
          · rw [he]
            exact List.mem_cons_self _ _
          · exact List.mem_cons_of_mem _ ((ih hnd.2).mpr (Or.inl ⟨hne, hm2⟩))
        · rw [alookup, if_neg hk] at hw
          exact List.mem_cons_of_mem _ ((ih hnd.2).mpr (Or.inr ⟨w, hw, he⟩))

/-- Erasing a binding yields a sublist. -/
lemma aerase_sublist (l : List (α × β)) (a : α) : List.Sublist (aerase l a) l := by
  induction l with
  | nil => exact List.Sublist.refl []
  | cons kv l ih =>
    obtain ⟨k, v⟩ := kv
    rw [aerase]
    by_cases hk : k = a
    · rw [if_pos hk]
      exact List.sublist_cons_self _ _
    · rw [if_neg hk]
      exact List.Sublist.cons₂ _ ih

/-- Membership after an erase, given distinct keys. -/
lemma mem_aerase_iff {l : List (α × β)} (hnd : (keys l).Nodup) {a : α} {pq : α × β} :
    pq ∈ aerase l a ↔ pq.1 ≠ a ∧ pq ∈ l := by
  induction l with
  | nil => simp [aerase]
  | cons kv l ih =>
    obtain ⟨k, v⟩ := kv
    simp only [keys, List.map_cons, List.nodup_cons] at hnd
    rw [aerase]
    by_cases hk : k = a
    · subst hk
      rw [if_pos rfl]
      constructor
      · intro hm
        have hne : pq.1 ≠ k := by
          intro e
          exact hnd.1 (e ▸ List.mem_map_of_mem Prod.fst hm)
        exact ⟨hne, List.mem_cons_of_mem _ hm⟩
      · rintro ⟨hne, hm⟩
        rcases List.mem_cons.mp hm with he | hm2
        · exact absurd (congrArg Prod.fst he) hne
        · exact hm2
    · rw [if_neg hk]
      constructor
      · intro hm
        rcases List.mem_cons.mp hm with he | hm2
        · exact ⟨by rw [he]; exact hk, by rw [he]; exact List.mem_cons_self _ _⟩
        · obtain ⟨hne, hmm⟩ := (ih hnd.2).mp hm2
          exact ⟨hne, List.mem_cons_of_mem _ hmm⟩
      · rintro ⟨hne, hm⟩
        rcases List.mem_cons.mp hm with he | hm2
        · rw [he]
          exact List.mem_cons_self _ _
        · exact List.mem_cons_of_mem _ ((ih hnd.2).mpr ⟨hne, hm2⟩)

/-- Key membership after an erase, given distinct keys. -/
lemma mem_keys_aerase_iff {l : List (α × β)} (hnd : (keys l).Nodup) {a b : α} :
    b ∈ keys (aerase l a) ↔ b ∈ keys l ∧ b ≠ a := by
  constructor
  · intro hb
    obtain ⟨pq, hpq, he⟩ := List.mem_map.mp hb
    obtain ⟨hne, hm⟩ := (mem_aerase_iff hnd).mp hpq
    exact ⟨he ▸ List.mem_map_of_mem Prod.fst hm, he ▸ hne⟩
  · rintro ⟨hb, hne⟩
    obtain ⟨pq, hpq, he⟩ := List.mem_map.mp hb
    exact he ▸ List.mem_map_of_mem Prod.fst ((mem_aerase_iff hnd).mpr ⟨he ▸ hne, hpq⟩)

/-- Looking up another key ignores an erase. -/
lemma alookup_aerase_ne (l : List (α × β)) {a c : α} (h : c ≠ a) :
    alookup (aerase l a) c = alookup l c := by
  induction l with
  | nil => rfl
  | cons kv l ih =>
    obtain ⟨k, v⟩ := kv
    rw [aerase]
    by_cases hk : k = a
    · rw [if_pos hk, alookup, if_neg (fun e => h (e.symm.trans hk))]
    · rw [if_neg hk, alookup, alookup]
      by_cases hkc : k = c
      · rw [if_pos hkc, if_pos hkc]
      · rw [if_neg hkc, if_neg hkc]
        exact ih

/-- Key membership after a dict write. -/
lemma mem_keys_aset_iff (l : List (α × β)) (a : α) (v : β) {b : α} :
    b ∈ keys (aset l a v) ↔ b ∈ keys l ∨ b = a := by
  induction l with
  | nil => simp [aset, keys]
  | cons kv l ih =>
    obtain ⟨k, w⟩ := kv
    rw [aset]
    by_cases hk : k = a
    · subst hk
      rw [if_pos rfl]
      simp only [keys, List.map_cons, List.mem_cons]
      constructor
      · rintro (he | hm)
        · exact Or.inr he
        · exact Or.inl (Or.inr hm)
      · rintro ((he | hm) | he)
        · exact Or.inl he
        · exact Or.inr hm
        · exact Or.inl he
    · rw [if_neg hk]
      simp only [keys, List.map_cons, List.mem_cons] at ih ⊢
      rw [ih]
      tauto

/-- A dict write keeps distinct keys distinct. -/
lemma nodup_keys_aset (l : List (α × β)) (a : α) (v : β) (hnd : (keys l).Nodup) :
    (keys (aset l a v)).Nodup := by
  induction l with
  | nil => simp [aset, keys]
  | cons kv l ih =>
    obtain ⟨k, w⟩ := kv
    simp only [keys, List.map_cons, List.nodup_cons] at hnd
    rw [aset]
    by_cases hk : k = a
    · rw [if_pos hk]
      simp only [keys, List.map_cons, List.nodup_cons]
      exact ⟨hnd.1, hnd.2⟩
    · rw [if_neg hk]
      simp only [keys, List.map_cons, List.nodup_cons]
      refine ⟨?_, ih hnd.2⟩
      intro hm
      rcases (mem_keys_aset_iff l a v).mp hm with hm2 | he
      · exact hnd.1 hm2
      · exact hk he

/-- Membership after a dict write, given distinct keys. -/
lemma mem_aset_iff {l : List (α × β)} (hnd : (keys l).Nodup) {a : α} {v : β} {pq : α × β} :
    pq ∈ aset l a v ↔ (pq.1 ≠ a ∧ pq ∈ l) ∨ pq = (a, v) := by
  induction l with
  | nil => simp [aset]
  | cons kv l ih =>
    obtain ⟨k, w⟩ := kv
    simp only [keys, List.map_cons, List.nodup_cons] at hnd
    rw [aset]
    by_cases hk : k = a
    · subst hk
      rw [if_pos rfl]
      constructor
      · intro hm
        rcases List.mem_cons.mp hm with he | hm2
        · exact Or.inr he
        · have hne : pq.1 ≠ k := by
            intro e
            exact hnd.1 (e ▸ List.mem_map_of_mem Prod.fst hm2)
          exact Or.inl ⟨hne, List.mem_cons_of_mem _ hm2⟩
      · rintro (⟨hne, hm⟩ | he)
        · rcases List.mem_cons.mp hm with he | hm2
          · exact absurd (congrArg Prod.fst he) hne
          · exact List.mem_cons_of_mem _ hm2
        · rw [he]
          exact List.mem_cons_self _ _
    · rw [if_neg hk]
      constructor
      · intro hm
        rcases List.mem_cons.mp hm with he | hm2
        · refine Or.inl ⟨?_, by rw [he]; exact List.mem_cons_self _ _⟩
          rw [he]
          exact hk
        · rcases (ih hnd.2).mp hm2 with ⟨hne, hmm⟩ | he
          · exact Or.inl ⟨hne, List.mem_cons_of_mem _ hmm⟩
          · exact Or.inr he
      · rintro (⟨hne, hm⟩ | he)
        · rcases List.mem_cons.mp hm with he2 | hm2
          · rw [he2]
            exact List.mem_cons_self _ _
          · exact List.mem_cons_of_mem _ ((ih hnd.2).mpr (Or.inl ⟨hne, hm2⟩))
        · exact List.mem_cons_of_mem _ ((ih hnd.2).mpr (Or.inr he))

/-- Removing an element yields a sublist. -/
lemma removeFirst_sublist {γ : Type} [DecidableEq γ] (l : List γ) (a : γ) :
    List.Sublist (removeFirst l a) l := by
  induction l with
  | nil => exact List.Sublist.refl []
  | cons x l ih =>
    rw [removeFirst]
    by_cases hx : x = a
    · rw [if_pos hx]
      exact List.sublist_cons_self _ _
    · rw [if_neg hx]
      exact List.Sublist.cons₂ _ ih

/-- Other elements survive a removal. -/
lemma mem_removeFirst_of_ne {γ : Type} [DecidableEq γ] {l : List γ} {a b : γ}
    (hne : b ≠ a) (hb : b ∈ l) : b ∈ removeFirst l a := by
  induction l with
  | nil => cases hb
  | cons x l ih =>
    rw [removeFirst]
    by_cases hx : x = a
    · rw [if_pos hx]
      rcases List.mem_cons.mp hb with he | hm
      · exact absurd (he.trans hx) hne
      · exact hm
    · rw [if_neg hx]
      rcases List.mem_cons.mp hb with he | hm
      · rw [he]
        exact List.mem_cons_self _ _
      · exact List.mem_cons_of_mem _ (ih hm)

end AssocLemmas

namespace Models

/-- The sum of the current quantities of the orders in a FIFO queue. -/
def levelSum (h : Nat → SRec) (q : List Nat) : Int :=
  (q.map (fun sn => (h sn).qty)).sum

/-- All serials resting in a side's level queues. -/
def allSerials (levels : List (Int × List Nat)) : List Nat :=
  levels.flatMap Prod.snd

@[simp]
lemma levelSum_nil (h : Nat → SRec) : levelSum h [] = 0 := rfl

@[simp]
lemma levelSum_cons (h : Nat → SRec) (x : Nat) (xs : List Nat) :
    levelSum h (x :: xs) = (h x).qty + levelSum h xs := by
  simp [levelSum]

lemma levelSum_append (h : Nat → SRec) (q1 q2 : List Nat) :
    levelSum h (q1 ++ q2) = levelSum h q1 + levelSum h q2 := by
  simp [levelSum]

/-- A heap write outside a queue does not change its sum. -/
lemma levelSum_hset_not_mem {h : Nat → SRec} {sn : Nat} {r : SRec} {q : List Nat}
    (hq : sn ∉ q) : levelSum (hset h sn r) q = levelSum h q := by
  unfold levelSum
  congr 1
  apply List.map_congr_left
  intro x hx
  unfold hset
  have hxsn : ¬ x = sn := by
    intro e
    rw [e] at hx
    exact hq hx
  rw [if_neg hxsn]

/-- A heap write at a serial occurring once changes the sum by the
quantity difference. -/
lemma levelSum_hset_mem {h : Nat → SRec} {sn : Nat} {r : SRec} {q : List Nat}
    (hq : sn ∈ q) (hnd : q.Nodup) :
    levelSum (hset h sn r) q = levelSum h q - (h sn).qty + r.qty := by
  induction q with
  | nil => cases hq
  | cons x xs ih =>
    rw [List.nodup_cons] at hnd
    rcases List.mem_cons.mp hq with he | hm
    · subst he
      rw [levelSum_cons, levelSum_cons, levelSum_hset_not_mem hnd.1]
      unfold hset
      rw [if_pos rfl]
      ring
    · have hxsn : x ≠ sn := fun e => hnd.1 (e ▸ hm)
      rw [levelSum_cons, levelSum_cons, ih hm hnd.2]
      unfold hset
      rw [if_neg hxsn]
      ring

/-- Removing one occurrence subtracts that order's quantity. -/
lemma levelSum_removeFirst {h : Nat → SRec} {q : List Nat} {sn : Nat} (hmem : sn ∈ q) :
    levelSum h (removeFirst q sn) = levelSum h q - (h sn).qty := by
  induction q with
  | nil => cases hmem
  | cons x xs ih =>
    rw [removeFirst]
    by_cases hx : x = sn
    · rw [if_pos hx, hx, levelSum_cons]
      ring
    · have hm : sn ∈ xs := by
        rcases List.mem_cons.mp hmem with he | hm2
        · exact absurd he.symm hx
        · exact hm2
      rw [if_neg hx, levelSum_cons, levelSum_cons, ih hm]
      ring

/-- A serial rests in the side iff some level's queue holds it. -/
lemma mem_allSerials {levels : List (Int × List Nat)} {sn : Nat} :
    sn ∈ allSerials levels ↔ ∃ pq ∈ levels, sn ∈ pq.2 :=
  List.mem_flatMap

lemma allSerials_append (l1 l2 : List (Int × List Nat)) :
    allSerials (l1 ++ l2) = allSerials l1 ++ allSerials l2 := by
  simp [allSerials]

@[simp]
lemma allSerials_cons (kv : Int × List Nat) (l : List (Int × List Nat)) :
    allSerials (kv :: l) = kv.2 ++ allSerials l := by
  simp [allSerials]

/-- `allSerials` is monotone under sublists. -/
lemma allSerials_sublist {l1 l2 : List (Int × List Nat)} (h : List.Sublist l1 l2) :
    List.Sublist (allSerials l1) (allSerials l2) := by
  induction h with
  | slnil => exact List.Sublist.refl _
  | cons kv hsub ih =>
    rw [allSerials_cons]
    exact ih.trans (List.sublist_append_right _ _)
  | cons₂ kv hsub ih =>
    rw [allSerials_cons, allSerials_cons]
    exact ih.append_left _

/-- Every queue of a duplicate-free side is duplicate-free. -/
lemma queue_nodup {levels : List (Int × List Nat)} (hnd : (allSerials levels).Nodup)
    {pq : Int × List Nat} (hpq : pq ∈ levels) : pq.2.Nodup := by
  rw [allSerials, List.nodup_flatMap] at hnd
  exact hnd.1 pq hpq

/-- Distinct levels of a duplicate-free side have disjoint queues. -/
lemma queues_disjoint {levels : List (Int × List Nat)} (hnd : (allSerials levels).Nodup)
    {pq1 pq2 : Int × List Nat} (h1 : pq1 ∈ levels) (h2 : pq2 ∈ levels) (hne : pq1 ≠ pq2) :
    List.Disjoint pq1.2 pq2.2 := by
  rw [allSerials, List.nodup_flatMap] at hnd
  have hsym : Symmetric (Function.onFun List.Disjoint (Prod.snd : Int × List Nat → List Nat)) :=
    fun x y hxy => List.Disjoint.symm hxy
  exact hnd.2.forall hsym h1 h2 hne

/-- Appending a fresh serial to the queue at a present price permutes the
serials to the old ones plus the new serial. -/
lemma allSerials_amodify_append (l : List (Int × List Nat)) (p : Int) (sn : Nat)
    (hp : p ∈ keys l) :
    (allSerials (amodify l p (fun q => q ++ [sn]))).Perm (allSerials l ++ [sn]) := by
  induction l with
  | nil => cases hp
  | cons kv l ih =>
    obtain ⟨k, q⟩ := kv
    rw [amodify]
    by_cases hk : k = p
    · rw [if_pos hk, allSerials_cons, allSerials_cons]
      rw [List.append_assoc, List.append_assoc]
      exact List.Perm.append_left q List.perm_append_comm
    · have hp2 : p ∈ keys l := by
        rcases List.mem_cons.mp hp with he | hm
        · exact absurd he.symm hk
        · exact hm
      rw [if_neg hk, allSerials_cons, allSerials_cons, List.append_assoc]
      exact List.Perm.append_left q (ih hp2)

/-- A queue-shrinking modification shrinks the serial list. -/
lemma allSerials_amodify_sublist (l : List (Int × List Nat)) (p : Int)
    (f : List Nat → List Nat) (hf : ∀ q, List.Sublist (f q) q) :
    List.Sublist (allSerials (amodify l p f)) (allSerials l) := by
  induction l with
  | nil => exact List.Sublist.refl _
  | cons kv l ih =>
    obtain ⟨k, q⟩ := kv
    rw [amodify]
    by_cases hk : k = p
    · rw [if_pos hk, allSerials_cons, allSerials_cons]
      exact List.Sublist.append (hf q) (List.Sublist.refl _)
    · rw [if_neg hk, allSerials_cons, allSerials_cons]
      exact ih.append_left q

end Models

section MoreAssoc

variable {α β : Type} [DecidableEq α]

/-- Appending a fresh binding does not affect other lookups. -/
lemma alookup_append_sing_ne (l : List (α × β)) {p c : α} (v : β) (h : c ≠ p) :
    alookup (l ++ [(p, v)]) c = alookup l c := by
  induction l with
  | nil =>
    have hpc : ¬ p = c := fun e => h e.symm
    rw [List.nil_append]
    show (if p = c then some v else alookup [] c) = alookup [] c
    rw [if_neg hpc]
  | cons kv l ih =>
    obtain ⟨k, w⟩ := kv
    rw [List.cons_append, alookup, alookup]
    by_cases hk : k = c
    · rw [if_pos hk, if_pos hk]
    · rw [if_neg hk, if_neg hk]
      exact ih

/-- Appending a binding for an absent key makes it found. -/
lemma alookup_append_sing_self {l : List (α × β)} {p : α} (v : β) (h : p ∉ keys l) :
    alookup (l ++ [(p, v)]) p = some v := by
  induction l with
  | nil =>
    rw [List.nil_append]
    show (if p = p then some v else alookup [] p) = some v
    rw [if_pos rfl]
  | cons kv l ih =>
    obtain ⟨k, w⟩ := kv
    have hk : ¬ k = p := by
      intro e
      exact h (by simp only [keys, List.map_cons]; exact List.mem_cons.mpr (Or.inl e.symm))
    rw [List.cons_append, alookup, if_neg hk]
    exact ih (fun e => h (by simp only [keys, List.map_cons]; exact List.mem_cons_of_mem _ e))

end MoreAssoc

namespace Models

/-- Well-formedness of a book side: the inductive invariant of the
replay.  `agg` and `noEmpty` are the claimed invariant; the remaining
components support their preservation: distinct level/aggregate/id-map
keys with equal level and aggregate domains, serials below the
allocator and globally distinct, every serial resting at the level of
its recorded price, and the id map pointing at resting serials
injectively. -/
structure SideWF (s : SideBook) : Prop where
  agg : ∀ pq ∈ s.levels, alookup s.qtyDict pq.1 = some (levelSum s.heap pq.2)
  noEmpty : ∀ pq ∈ s.levels, pq.2 ≠ []
  ndLevels : (keys s.levels).Nodup
  ndQty : (keys s.qtyDict).Nodup
  domEq : ∀ p, p ∈ keys s.qtyDict ↔ p ∈ keys s.levels
  serialLt : ∀ sn ∈ allSerials s.levels, sn < s.nextSerial
  serialNd : (allSerials s.levels).Nodup
  priceOk : ∀ pq ∈ s.levels, ∀ sn ∈ pq.2, (s.heap sn).price = pq.1
  resident : ∀ os ∈ s.orderDict, os.2 ∈ allSerials s.levels
  ndOid : (keys s.orderDict).Nodup
  dictInj : ∀ e1 ∈ s.orderDict, ∀ e2 ∈ s.orderDict, e1.2 = e2.2 → e1.1 = e2.1

/-- The empty side is well-formed. -/
lemma wf_emptySide : SideWF emptySide := by
  constructor <;> simp [emptySide, keys, allSerials]

end Models

namespace Models

/-- `add_order` on one side preserves well-formedness. -/
lemma wf_sideAdd (s : SideBook) (wf : SideWF s) (oid : Nat) (price qty : Int) :
    SideWF (sideAdd s oid price qty) := by
  classical
  have hfresh : s.nextSerial ∉ allSerials s.levels := by
    intro hm
    exact absurd (wf.serialLt _ hm) (lt_irrefl _)
  set levels0 := if price ∈ keys s.levels then s.levels else s.levels ++ [(price, [])] with hl0
  set qty0 := if price ∈ keys s.levels then s.qtyDict else s.qtyDict ++ [(price, 0)] with hq0
  have hLev : (sideAdd s oid price qty).levels =
      amodify levels0 price (fun q => q ++ [s.nextSerial]) := rfl
  have hQty : (sideAdd s oid price qty).qtyDict = amodify qty0 price (fun v => v + qty) := rfl
  have hDict : (sideAdd s oid price qty).orderDict = aset s.orderDict oid s.nextSerial := rfl
  have hHeap : (sideAdd s oid price qty).heap =
      hset s.heap s.nextSerial ⟨oid, price, qty⟩ := rfl
  have hNext : (sideAdd s oid price qty).nextSerial = s.nextSerial + 1 := rfl
  have hpq : price ∉ keys s.levels → price ∉ keys s.qtyDict :=
    fun h hm => h ((wf.domEq price).mp hm)
  have hkeysL0 : ∀ c, c ∈ keys levels0 ↔ (c ∈ keys s.levels ∨ c = price) := by
    intro c
    rw [hl0]
    by_cases hpk : price ∈ keys s.levels
    · rw [if_pos hpk]
      exact ⟨Or.inl, fun h => h.elim id (fun e => e ▸ hpk)⟩
    · rw [if_neg hpk]
      simp [keys]
  have hkeysQ0 : ∀ c, c ∈ keys qty0 ↔ (c ∈ keys s.qtyDict ∨ c = price) := by
    intro c
    rw [hq0]
    by_cases hpk : price ∈ keys s.levels
    · rw [if_pos hpk]
      refine ⟨Or.inl, ?_⟩
      rintro (h | rfl)
      · exact h
      · exact (wf.domEq c).mpr hpk
    · rw [if_neg hpk]
      simp [keys]
  have hndL0 : (keys levels0).Nodup := by
    rw [hl0]
    by_cases hpk : price ∈ keys s.levels
    · rw [if_pos hpk]
      exact wf.ndLevels
    · rw [if_neg hpk]
      simp only [keys, List.map_append, List.map_cons, List.map_nil]
      rw [List.nodup_append]
      refine ⟨wf.ndLevels, List.nodup_singleton _, ?_⟩
      intro a ha hb
      rw [List.mem_singleton.mp hb] at ha
      exact hpk ha
  have hndQ0 : (keys qty0).Nodup := by
    rw [hq0]
    by_cases hpk : price ∈ keys s.levels
    · rw [if_pos hpk]
      exact wf.ndQty
    · rw [if_neg hpk]
      simp only [keys, List.map_append, List.map_cons, List.map_nil]
      rw [List.nodup_append]
      refine ⟨wf.ndQty, List.nodup_singleton _, ?_⟩
      intro a ha hb
      rw [List.mem_singleton.mp hb] at ha
      exact hpq hpk ha
  have hpL0 : price ∈ keys levels0 := (hkeysL0 price).mpr (Or.inr rfl)
  have hAS0 : allSerials levels0 = allSerials s.levels := by
    rw [hl0]
    by_cases hpk : price ∈ keys s.levels
    · rw [if_pos hpk]
    · rw [if_neg hpk, allSerials_append]
      simp [allSerials]
  have hmemL0 : ∀ pq : Int × List Nat, pq ∈ levels0 → pq.1 ≠ price → pq ∈ s.levels := by
    intro pq hm hne
    rw [hl0] at hm
    by_cases hpk : price ∈ keys s.levels
    · rw [if_pos hpk] at hm
      exact hm
    · rw [if_neg hpk] at hm
      rcases List.mem_append.mp hm with h | h
      · exact h
      · exact absurd (congrArg Prod.fst (List.mem_singleton.mp h)) hne
  have halookQ0_ne : ∀ c, c ≠ price → alookup qty0 c = alookup s.qtyDict c := by
    intro c hc
    rw [hq0]
    by_cases hpk : price ∈ keys s.levels
    · rw [if_pos hpk]
    · rw [if_neg hpk]
      exact alookup_append_sing_ne _ _ hc
  have hq0nil : price ∉ keys s.levels → ∀ q0 : List Nat,
      alookup levels0 price = some q0 → q0 = [] := by
    intro hpk q0 hlook
    rw [hl0, if_neg hpk, alookup_append_sing_self _ hpk] at hlook
    exact (Option.some_inj.mp hlook).symm
  have hlookpos : price ∈ keys s.levels → ∀ q0 : List Nat,
      alookup levels0 price = some q0 → alookup s.levels price = some q0 := by
    intro hpk q0 hlook
    rw [hl0, if_pos hpk] at hlook
    exact hlook
  have hperm : (allSerials (amodify levels0 price (fun q => q ++ [s.nextSerial]))).Perm
      (allSerials s.levels ++ [s.nextSerial]) := by
    have := allSerials_amodify_append levels0 price s.nextSerial hpL0
    rw [hAS0] at this
    exact this
  refine ⟨?_, ?_, ?_, ?_, ?_, ?_, ?_, ?_, ?_, ?_, ?_⟩
  · -- agg
    intro pq hpq2
    rw [hLev] at hpq2
    rw [hQty, hHeap]
    rcases (mem_amodify_iff hndL0).mp hpq2 with ⟨hne, hm0⟩ | ⟨q0, hlook, hpqe⟩
    · have hmem : pq ∈ s.levels := hmemL0 pq hm0 hne
      have hnotin : s.nextSerial ∉ pq.2 := by
        intro hm
        exact hfresh (mem_allSerials.mpr ⟨pq, hmem, hm⟩)
      rw [alookup_amodify_ne _ _ hne, halookQ0_ne pq.1 hne, wf.agg pq hmem,
        levelSum_hset_not_mem hnotin]
    · rw [hpqe, alookup_amodify_self]
      by_cases hpk : price ∈ keys s.levels
      · have hlookL := hlookpos hpk q0 hlook
        have hq0mem : (price, q0) ∈ s.levels := alookup_mem hlookL
        have hnotin : s.nextSerial ∉ q0 := by
          intro hm
          exact hfresh (mem_allSerials.mpr ⟨(price, q0), hq0mem, hm⟩)
        have hlookq : alookup qty0 price = some (levelSum s.heap q0) := by
          rw [hq0, if_pos hpk]
          exact wf.agg (price, q0) hq0mem
        rw [hlookq]
        simp [levelSum_append, levelSum_hset_not_mem hnotin, hset]
      · have hq0e := hq0nil hpk q0 hlook
        have : alookup qty0 price = some 0 := by
          rw [hq0, if_neg hpk]
          exact alookup_append_sing_self _ (hpq hpk)
        rw [this, hq0e]
        simp [hset]
  · -- noEmpty
    intro pq hpq2
    rw [hLev] at hpq2
    rcases (mem_amodify_iff hndL0).mp hpq2 with ⟨hne, hm0⟩ | ⟨q0, hlook, hpqe⟩
    · exact wf.noEmpty pq (hmemL0 pq hm0 hne)
    · rw [hpqe]
      simp
  · -- ndLevels
    rw [hLev, keys_amodify]
    exact hndL0
  · -- ndQty
    rw [hQty, keys_amodify]
    exact hndQ0
  · -- domEq
    intro c
    rw [hQty, hLev, keys_amodify, keys_amodify, hkeysQ0 c, hkeysL0 c, wf.domEq c]
  · -- serialLt
    intro sn' hm
    rw [hLev] at hm
    rw [hNext]
    obtain ⟨pq, hpq2, hsn'⟩ := mem_allSerials.mp hm
    rcases (mem_amodify_iff hndL0).mp hpq2 with ⟨hne, hm0⟩ | ⟨q0, hlook, hpqe⟩
    · have := wf.serialLt sn' (mem_allSerials.mpr ⟨pq, hmemL0 pq hm0 hne, hsn'⟩)
      omega
    · rw [hpqe] at hsn'
      rcases List.mem_append.mp hsn' with hq | hs
      · by_cases hpk : price ∈ keys s.levels
        · have hlookL := hlookpos hpk q0 hlook
          have := wf.serialLt sn'
            (mem_allSerials.mpr ⟨(price, q0), alookup_mem hlookL, hq⟩)
          omega
        · rw [hq0nil hpk q0 hlook] at hq
          cases hq
      · have : sn' = s.nextSerial := List.mem_singleton.mp hs
        omega
  · -- serialNd
    rw [hLev]
    refine (List.Perm.nodup_iff hperm).mpr ?_
    rw [List.nodup_append]
    refine ⟨wf.serialNd, List.nodup_singleton _, ?_⟩
    intro a ha hb
    rw [List.mem_singleton.mp hb] at ha
    exact hfresh ha
  · -- priceOk
    intro pq hpq2 sn' hsn'
    rw [hLev] at hpq2
    rw [hHeap]
    rcases (mem_amodify_iff hndL0).mp hpq2 with ⟨hne, hm0⟩ | ⟨q0, hlook, hpqe⟩
    · have hmem := hmemL0 pq hm0 hne
      have hlt : sn' ∈ allSerials s.levels := mem_allSerials.mpr ⟨pq, hmem, hsn'⟩
      have hnesn : ¬ sn' = s.nextSerial := by
        intro e
        rw [e] at hlt
        exact hfresh hlt
      unfold hset
      rw [if_neg hnesn]
      exact wf.priceOk pq hmem sn' hsn'
    · rw [hpqe] at hsn' ⊢
      rcases List.mem_append.mp hsn' with hq | hs
      · by_cases hpk : price ∈ keys s.levels
        · have hlookL := hlookpos hpk q0 hlook
          have hmem := alookup_mem hlookL
          have hlt : sn' ∈ allSerials s.levels := mem_allSerials.mpr ⟨(price, q0), hmem, hq⟩
          have hnesn : ¬ sn' = s.nextSerial := by
            intro e
            rw [e] at hlt
            exact hfresh hlt
          unfold hset
          rw [if_neg hnesn]
          exact wf.priceOk (price, q0) hmem sn' hq
        · rw [hq0nil hpk q0 hlook] at hq
          cases hq
      · rw [List.mem_singleton.mp hs]
        unfold hset
        rw [if_pos rfl]
  · -- resident
    intro os hos
    rw [hDict] at hos
    rw [hLev, hperm.mem_iff]
    rcases (mem_aset_iff wf.ndOid).mp hos with ⟨hne, hmem⟩ | he
    · exact List.mem_append.mpr (Or.inl (wf.resident os hmem))
    · rw [he]
      exact List.mem_append.mpr (Or.inr (List.mem_singleton_self _))
  · -- ndOid
    rw [hDict]
    exact nodup_keys_aset _ _ _ wf.ndOid
  · -- dictInj
    intro e1 h1 e2 h2 heq
    rw [hDict] at h1 h2
    rcases (mem_aset_iff wf.ndOid).mp h1 with ⟨hne1, hm1⟩ | he1 <;>
      rcases (mem_aset_iff wf.ndOid).mp h2 with ⟨hne2, hm2⟩ | he2
    · exact wf.dictInj e1 hm1 e2 hm2 heq
    · exfalso
      have hres : e1.2 ∈ allSerials s.levels := wf.resident e1 hm1
      rw [heq, he2] at hres
      exact hfresh hres
    · exfalso
      have hres : e2.2 ∈ allSerials s.levels := wf.resident e2 hm2
      rw [← heq, he1] at hres
      exact hfresh hres
    · rw [he1, he2]

end Models

namespace Models

/-- Reduction of `delete_order` once the order is found: its level is
located via the id map and the heap, the order is removed from the FIFO
list, the aggregate is decremented, and the level is dropped when the
list became empty. -/
lemma sideDelete_eq (s : SideBook) (oid sn : Nat) (p' : Int) (q' : List Nat)
    (hlook : alookup s.orderDict oid = some sn)
    (hprice : (s.heap sn).price = p')
    (hlookL : alookup s.levels p' = some q') :
    sideDelete s oid =
      if removeFirst q' sn = [] then
        { s with levels := aerase (amodify s.levels p' (fun q => removeFirst q sn)) p',
                 qtyDict := aerase (amodify s.qtyDict p' (fun v => v - (s.heap sn).qty)) p',
                 orderDict := aerase s.orderDict oid }
      else
        { s with levels := amodify s.levels p' (fun q => removeFirst q sn),
                 qtyDict := amodify s.qtyDict p' (fun v => v - (s.heap sn).qty),
                 orderDict := aerase s.orderDict oid } := by
  have hguard : p' ∈ keys s.levels := mem_keys_of_alookup hlookL
  simp only [sideDelete, hlook]
  rw [hprice, hlookL]
  simp only [Option.getD_some, if_pos hguard]
  by_cases hq1 : removeFirst q' sn = []
  · rw [if_pos hq1, if_pos hq1]
  · rw [if_neg hq1, if_neg hq1]

/-- `delete_order` on one side preserves well-formedness. -/
lemma wf_sideDelete (s : SideBook) (wf : SideWF s) (oid : Nat) :
    SideWF (sideDelete s oid) := by
  classical
  cases hlook : alookup s.orderDict oid with
  | none =>
    have he : sideDelete s oid = s := by
      simp [sideDelete, hlook]
    rw [he]
    exact wf
  | some sn =>
    have hmemD : (oid, sn) ∈ s.orderDict := alookup_mem hlook
    have hres : sn ∈ allSerials s.levels := wf.resident _ hmemD
    obtain ⟨pq0, hpqmem, hsnq⟩ := mem_allSerials.mp hres
    obtain ⟨p', q'⟩ := pq0
    have hprice : (s.heap sn).price = p' := wf.priceOk (p', q') hpqmem sn hsnq
    have hlookL : alookup s.levels p' = some q' := mem_alookup wf.ndLevels hpqmem
    have hndq' : q'.Nodup := queue_nodup wf.serialNd hpqmem
    have huniq : ∀ pq2 : Int × List Nat, pq2 ∈ s.levels → pq2.1 = p' → pq2.2 = q' := by
      intro pq2 hm he
      have := mem_alookup wf.ndLevels (l := s.levels) (a := pq2.1) (b := pq2.2)
        (by exact hm)
      rw [he, hlookL] at this
      exact Option.some_inj.mp this.symm
    have hlev1nd : (keys (amodify s.levels p' (fun q => removeFirst q sn))).Nodup := by
      rw [keys_amodify]
      exact wf.ndLevels
    have hqty1nd : (keys (amodify s.qtyDict p' (fun v => v - (s.heap sn).qty))).Nodup := by
      rw [keys_amodify]
      exact wf.ndQty
    have hlook1 : alookup (amodify s.levels p' (fun q => removeFirst q sn)) p' =
        some (removeFirst q' sn) := by
      rw [alookup_amodify_self, hlookL]
      rfl
    have hsurvive : ∀ sn', sn' ≠ sn → sn' ∈ allSerials s.levels →
        sn' ∈ allSerials (amodify s.levels p' (fun q => removeFirst q sn)) := by
      intro sn' hne hm
      obtain ⟨pq2, hm2, hsn2⟩ := mem_allSerials.mp hm
      by_cases hp2 : pq2.1 = p'
      · have hq2 : pq2.2 = q' := huniq pq2 hm2 hp2
        refine mem_allSerials.mpr ⟨(p', removeFirst q' sn), ?_, ?_⟩
        · exact (mem_amodify_iff wf.ndLevels).mpr (Or.inr ⟨q', hlookL, rfl⟩)
        · exact mem_removeFirst_of_ne hne (hq2 ▸ hsn2)
      · refine mem_allSerials.mpr ⟨pq2, ?_, hsn2⟩
        exact (mem_amodify_iff wf.ndLevels).mpr (Or.inl ⟨hp2, hm2⟩)
    have hAS1 : List.Sublist
        (allSerials (amodify s.levels p' (fun q => removeFirst q sn)))
        (allSerials s.levels) :=
      allSerials_amodify_sublist _ _ _ (fun q => removeFirst_sublist q sn)
    have hresOk : ∀ os : Nat × Nat, os ∈ aerase s.orderDict oid →
        os.2 ≠ sn ∧ os ∈ s.orderDict := by
      intro os hos
      obtain ⟨hne, hm⟩ := (mem_aerase_iff wf.ndOid).mp hos
      refine ⟨?_, hm⟩
      intro he
      exact hne (wf.dictInj os hm (oid, sn) hmemD he)
    have hndOid2 : (keys (aerase s.orderDict oid)).Nodup :=
      wf.ndOid.sublist ((aerase_sublist s.orderDict oid).map Prod.fst)
    have hinj2 : ∀ e1 ∈ aerase s.orderDict oid, ∀ e2 ∈ aerase s.orderDict oid,
        e1.2 = e2.2 → e1.1 = e2.1 := by
      intro e1 h1 e2 h2 he
      exact wf.dictInj e1 (hresOk e1 h1).2 e2 (hresOk e2 h2).2 he
    rw [sideDelete_eq s oid sn p' q' hlook hprice hlookL]
    by_cases hq1 : removeFirst q' sn = []
    · rw [if_pos hq1]
      refine ⟨?_, ?_, ?_, ?_, ?_, ?_, ?_, ?_, ?_, ?_, ?_⟩
      · -- agg
        intro pq2 hm2
        obtain ⟨hne2, hm3⟩ := (mem_aerase_iff hlev1nd).mp hm2
        rcases (mem_amodify_iff wf.ndLevels).mp hm3 with ⟨hne4, hm4⟩ | ⟨v, hv, he⟩
        · show alookup (aerase (amodify s.qtyDict p' _) p') pq2.1 = _
          rw [alookup_aerase_ne _ hne2, alookup_amodify_ne _ _ hne4]
          exact wf.agg pq2 hm4
        · exact absurd (congrArg Prod.fst he) hne2
      · -- noEmpty
        intro pq2 hm2
        obtain ⟨hne2, hm3⟩ := (mem_aerase_iff hlev1nd).mp hm2
        rcases (mem_amodify_iff wf.ndLevels).mp hm3 with ⟨hne4, hm4⟩ | ⟨v, hv, he⟩
        · exact wf.noEmpty pq2 hm4
        · exact absurd (congrArg Prod.fst he) hne2
      · -- ndLevels
        exact hlev1nd.sublist ((aerase_sublist _ p').map Prod.fst)
      · -- ndQty
        exact hqty1nd.sublist ((aerase_sublist _ p').map Prod.fst)
      · -- domEq
        intro c
        show c ∈ keys (aerase (amodify s.qtyDict p' _) p') ↔
          c ∈ keys (aerase (amodify s.levels p' _) p')
        rw [mem_keys_aerase_iff hqty1nd, mem_keys_aerase_iff hlev1nd,
          keys_amodify, keys_amodify, wf.domEq c]
      · -- serialLt
        intro sn' hm2
        have hsub : List.Sublist
            (allSerials (aerase (amodify s.levels p' (fun q => removeFirst q sn)) p'))
            (allSerials s.levels) :=
          (allSerials_sublist (aerase_sublist _ _)).trans hAS1
        exact wf.serialLt sn' (hsub.subset hm2)
      · -- serialNd
        have hsub : List.Sublist
            (allSerials (aerase (amodify s.levels p' (fun q => removeFirst q sn)) p'))
            (allSerials s.levels) :=
          (allSerials_sublist (aerase_sublist _ _)).trans hAS1
        exact wf.serialNd.sublist hsub
      · -- priceOk
        intro pq2 hm2 sn' hsn2
        obtain ⟨hne2, hm3⟩ := (mem_aerase_iff hlev1nd).mp hm2
        rcases (mem_amodify_iff wf.ndLevels).mp hm3 with ⟨hne4, hm4⟩ | ⟨v, hv, he⟩
        · exact wf.priceOk pq2 hm4 sn' hsn2
        · exact absurd (congrArg Prod.fst he) hne2
      · -- resident
        intro os hos
        obtain ⟨hnesn, hm⟩ := hresOk os hos
        have hm1 : os.2 ∈ allSerials (amodify s.levels p' (fun q => removeFirst q sn)) :=
          hsurvive os.2 hnesn (wf.resident os hm)
        obtain ⟨pq3, hm3, hsn3⟩ := mem_allSerials.mp hm1
        by_cases hp3 : pq3.1 = p'
        · exfalso
          have : pq3.2 = removeFirst q' sn := by
            have := mem_alookup hlev1nd (l := amodify s.levels p' (fun q => removeFirst q sn))
              (a := pq3.1) (b := pq3.2) (by exact hm3)
            rw [hp3, hlook1] at this
            exact Option.some_inj.mp this.symm
          rw [this, hq1] at hsn3
          cases hsn3
        · refine mem_allSerials.mpr ⟨pq3, ?_, hsn3⟩
          exact (mem_aerase_iff hlev1nd).mpr ⟨hp3, hm3⟩
      · -- ndOid
        exact hndOid2
      · -- dictInj
        exact hinj2
    · rw [if_neg hq1]
      refine ⟨?_, ?_, ?_, ?_, ?_, ?_, ?_, ?_, ?_, ?_, ?_⟩
      · -- agg
        intro pq2 hm2
        rcases (mem_amodify_iff wf.ndLevels).mp hm2 with ⟨hne4, hm4⟩ | ⟨v, hv, he⟩
        · show alookup (amodify s.qtyDict p' (fun v => v - (s.heap sn).qty)) pq2.1 =
            some (levelSum s.heap pq2.2)
          rw [alookup_amodify_ne _ _ hne4]
          exact wf.agg pq2 hm4
        · have hv2 : v = q' := by
            rw [hlookL] at hv
            exact (Option.some_inj.mp hv).symm
          subst hv2
          rw [he]
          show alookup (amodify s.qtyDict p' (fun w => w - (s.heap sn).qty)) p' =
            some (levelSum s.heap (removeFirst v sn))
          rw [alookup_amodify_self, wf.agg (p', v) hpqmem]
          have hsum : levelSum s.heap (removeFirst v sn) =
              levelSum s.heap v - (s.heap sn).qty := levelSum_removeFirst hsnq
          rw [hsum]
          rfl
      · -- noEmpty
        intro pq2 hm2
        rcases (mem_amodify_iff wf.ndLevels).mp hm2 with ⟨hne4, hm4⟩ | ⟨v, hv, he⟩
        · exact wf.noEmpty pq2 hm4
        · have hv2 : v = q' := by
            rw [hlookL] at hv
            exact (Option.some_inj.mp hv).symm
          subst hv2
          rw [he]
          exact hq1
      · -- ndLevels
        exact hlev1nd
      · -- ndQty
        exact hqty1nd
      · -- domEq
        intro c
        show c ∈ keys (amodify s.qtyDict p' (fun v => v - (s.heap sn).qty)) ↔
          c ∈ keys (amodify s.levels p' (fun q => removeFirst q sn))
        rw [keys_amodify, keys_amodify]
        exact wf.domEq c
      · -- serialLt
        intro sn' hm2
        exact wf.serialLt sn' (hAS1.subset hm2)
      · -- serialNd
        exact wf.serialNd.sublist hAS1
      · -- priceOk
        intro pq2 hm2 sn' hsn2
        rcases (mem_amodify_iff wf.ndLevels).mp hm2 with ⟨hne4, hm4⟩ | ⟨v, hv, he⟩
        · exact wf.priceOk pq2 hm4 sn' hsn2
        · have hv2 : v = q' := by
            rw [hlookL] at hv
            exact (Option.some_inj.mp hv).symm
          subst hv2
          rw [he] at hsn2 ⊢
          exact wf.priceOk (p', v) hpqmem sn' ((removeFirst_sublist v sn).subset hsn2)
      · -- resident
        intro os hos
        obtain ⟨hnesn, hm⟩ := hresOk os hos
        exact hsurvive os.2 hnesn (wf.resident os hm)
      · -- ndOid
        exact hndOid2
      · -- dictInj
        exact hinj2

end Models

namespace Models

/-- `execute_order` on one side preserves well-formedness. -/
lemma wf_sideExecute (s : SideBook) (wf : SideWF s) (oid : Nat) (qty : Int) :
    SideWF (sideExecute s oid qty) := by
  classical
  cases hlook : alookup s.orderDict oid with
  | none =>
    have he : sideExecute s oid qty = s := by
      simp [sideExecute, hlook]
    rw [he]
    exact wf
  | some sn =>
    have hmemD : (oid, sn) ∈ s.orderDict := alookup_mem hlook
    have hres : sn ∈ allSerials s.levels := wf.resident _ hmemD
    obtain ⟨pq0, hpqmem, hsnq⟩ := mem_allSerials.mp hres
    obtain ⟨p', q'⟩ := pq0
    have hprice : (s.heap sn).price = p' := wf.priceOk (p', q') hpqmem sn hsnq
    have hlookL : alookup s.levels p' = some q' := mem_alookup wf.ndLevels hpqmem
    have hndq' : q'.Nodup := queue_nodup wf.serialNd hpqmem
    have huniq : ∀ pq2 : Int × List Nat, pq2 ∈ s.levels → pq2.1 = p' → pq2.2 = q' := by
      intro pq2 hm he
      have hu := mem_alookup wf.ndLevels (l := s.levels) (a := pq2.1) (b := pq2.2)
        (by exact hm)
      rw [he, hlookL] at hu
      exact (Option.some_inj.mp hu).symm
    set s1 : SideBook :=
      { s with
        heap := hset s.heap sn { s.heap sn with qty := (s.heap sn).qty - qty }
        qtyDict := amodify s.qtyDict (s.heap sn).price (fun v => v - qty) } with hs1
    have hexecEq : sideExecute s oid qty =
        (if (s.heap sn).qty - qty ≤ 0 then sideDelete s1 oid else s1) := by
      rw [hs1]
      simp only [sideExecute, hlook]
    have hwf1 : SideWF s1 := by
      rw [hs1]
      refine ⟨?_, wf.noEmpty, wf.ndLevels, ?_, ?_, wf.serialLt, wf.serialNd, ?_,
        wf.resident, wf.ndOid, wf.dictInj⟩
      · -- agg
        intro pq2 hm2
        show alookup (amodify s.qtyDict (s.heap sn).price (fun v => v - qty)) pq2.1 =
          some (levelSum (hset s.heap sn { s.heap sn with qty := (s.heap sn).qty - qty }) pq2.2)
        by_cases hp2 : pq2.1 = p'
        · have hq2 : pq2.2 = q' := huniq pq2 hm2 hp2
          have hagg : alookup s.qtyDict (s.heap sn).price = some (levelSum s.heap q') := by
            rw [hprice]
            exact wf.agg (p', q') hpqmem
          rw [hp2, hq2, ← hprice, alookup_amodify_self, hagg,
            levelSum_hset_mem hsnq hndq']
          show some (levelSum s.heap q' - qty) =
            some (levelSum s.heap q' - (s.heap sn).qty + ((s.heap sn).qty - qty))
          congr 1
          ring
        · have hne2 : pq2.1 ≠ (s.heap sn).price := by
            rw [hprice]
            exact hp2
          have hnepair : (p', q') ≠ pq2 := by
            intro e
            exact hp2 (by rw [← e])
          have hdisj : sn ∉ pq2.2 :=
            fun hm => queues_disjoint wf.serialNd hpqmem hm2 hnepair hsnq hm
          rw [alookup_amodify_ne _ _ hne2, wf.agg pq2 hm2, levelSum_hset_not_mem hdisj]
      · -- ndQty
        show (keys (amodify s.qtyDict (s.heap sn).price (fun v => v - qty))).Nodup
        rw [keys_amodify]
        exact wf.ndQty
      · -- domEq
        intro c
        show c ∈ keys (amodify s.qtyDict (s.heap sn).price (fun v => v - qty)) ↔
          c ∈ keys s.levels
        rw [keys_amodify]
        exact wf.domEq c
      · -- priceOk
        intro pq2 hm2 sn' hsn2
        show (hset s.heap sn { s.heap sn with qty := (s.heap sn).qty - qty } sn').price = pq2.1
        by_cases hsn' : sn' = sn
        · subst hsn'
          unfold hset
          rw [if_pos rfl]
          exact wf.priceOk pq2 hm2 sn' hsn2
        · unfold hset
          rw [if_neg hsn']
          exact wf.priceOk pq2 hm2 sn' hsn2
    rw [hexecEq]
    by_cases hle : (s.heap sn).qty - qty ≤ 0
    · rw [if_pos hle]
      exact wf_sideDelete s1 hwf1 oid
    · rw [if_neg hle]
      exact hwf1

end Models

namespace Models

/-- Book-level well-formedness: both sides. -/
def BookWF (b : OrderBook) : Prop := SideWF b.bids ∧ SideWF b.asks

/-- A fresh book is well-formed. -/
lemma wf_emptyBook : BookWF emptyBook := ⟨wf_emptySide, wf_emptySide⟩

/-- Applying any message preserves book well-formedness. -/
lemma wf_addOrder (b : OrderBook) (hwf : BookWF b) (m : Msg) : BookWF (b.addOrder m) := by
  obtain ⟨hb, ha⟩ := hwf
  cases hm : m.msg_type
  · cases hside : m.side
    · simp only [OrderBook.addOrder, hm, hside]
      exact ⟨wf_sideAdd _ hb _ _ _, ha⟩
    · simp only [OrderBook.addOrder, hm, hside]
      exact ⟨hb, wf_sideAdd _ ha _ _ _⟩
  · cases hside : m.side
    · simp only [OrderBook.addOrder, hm, OrderBook.deleteOrder, hside]
      exact ⟨wf_sideDelete _ hb _, ha⟩
    · simp only [OrderBook.addOrder, hm, OrderBook.deleteOrder, hside]
      exact ⟨hb, wf_sideDelete _ ha _⟩
  · cases hside : m.side
    · simp only [OrderBook.addOrder, hm, OrderBook.executeOrder, hside]
      exact ⟨wf_sideExecute _ hb _ _, ha⟩
    · simp only [OrderBook.addOrder, hm, OrderBook.executeOrder, hside]
      exact ⟨hb, wf_sideExecute _ ha _ _⟩

/-- Replaying any stream from a well-formed book stays well-formed. -/
lemma wf_foldl (msgs : List Msg) : ∀ b : OrderBook, BookWF b →
    BookWF (msgs.foldl OrderBook.addOrder b) := by
  induction msgs with
  | nil => exact fun b h => h
  | cons m ms ih =>
    intro b h
    rw [List.foldl_cons]
    exact ih _ (wf_addOrder b h m)

/-- A replayed book is well-formed. -/
lemma wf_replayBook (msgs : List Msg) : BookWF (replayBook msgs) :=
  wf_foldl msgs emptyBook wf_emptyBook

/-- The C1 property of one side: every present price level's cached
aggregate equals the sum of its resting orders' quantities, and no level
has an empty FIFO list. -/
def levelInvariant (sb : SideBook) : Prop :=
  ∀ pq ∈ sb.levels,
    alookup sb.qtyDict pq.1 = some (levelSum sb.heap pq.2) ∧ pq.2 ≠ []

end Models

/-- C1: at every point of the replay — after each prefix of the message
stream is applied to the book — every price level present on either side
has its cached aggregate quantity equal to the sum of the quantities of
the resting orders in its FIFO queue, and no price level with an empty
queue remains in the book. -/
theorem C1_aggregate_invariant (msgs : List Models.Msg) (n : Nat) :
    Models.levelInvariant (Models.replayBook (msgs.take n)).bids ∧
      Models.levelInvariant (Models.replayBook (msgs.take n)).asks := by
  have hwf := Models.wf_replayBook (msgs.take n)
  exact ⟨fun pq h => ⟨hwf.1.agg pq h, hwf.1.noEmpty pq h⟩,
    fun pq h => ⟨hwf.2.agg pq h, hwf.2.noEmpty pq h⟩⟩
